import Mathlib

/-!
A shallow embedding of the hybrid retrieval engine implemented in
`backend/vector_db.py` (classes `VectorDatabase`, `HybridSearchEngine` and
`ResumeRetriever`), together with proofs checking the design specification's
claims against it.

Modelling conventions, chosen once and used throughout:

* Python `dict`s are insertion-ordered association lists: assigning to an
  existing key replaces the value in place (keeping the key's position),
  assigning to a fresh key appends it at the end.  `alistLookup`,
  `alistInsert` and `alistAdd` implement exactly that.
* Python's stable `sorted(..., key=lambda x: x[1], reverse=True)` is modelled
  by `pySorted` with the boolean comparison `fun a b => b.2 ≤ a.2`: a stable
  insertion sort, which agrees with every stable sort on a total preorder.
* A CPython `set(...)` iterates in a hash-dependent, unspecified order.  The
  model `pySet` fixes one realizable order, first occurrence in the input;
  no theorem below relies on this choice being the only possible one, and the
  one claim about tie order that passes through `pySet` is settled as a
  divergence from the specification, which holds under any such order.
* Machine floats are modelled as rationals.  `FLOAT_LOWEST` stands for the
  most negative single-precision float, the sentinel score FAISS reports in
  the rows (with label `-1`) that pad a result when the index holds fewer
  vectors than the requested `k`.
* The sentence-transformer model is external (spec §1, §6).  It is modelled
  by `EmbeddingModel`: `embed` is the composition of the provider's `encode`
  with L2 normalisation (the code normalises every embedding before use), and
  `fails` tells on which batches the `encode` call raises.  A raised call is
  threaded as a `Bool` alongside the state, because in Python the mutations
  performed before the raise survive on the object.
-/

/-- Lookup in an insertion-ordered association list (Python `d[k]` / `d.get(k)`). -/
def alistLookup {α : Type} : List (String × α) → String → Option α
  | [], _ => none
  | (k, v) :: t, key => if k = key then some v else alistLookup t key

/-- Assignment `d[k] = v` on a Python dict: replace in place, else append. -/
def alistInsert {α : Type} : List (String × α) → String → α → List (String × α)
  | [], key, v => [(key, v)]
  | (k, w) :: t, key, v => if k = key then (k, v) :: t else (k, w) :: alistInsert t key v

/-- `d[k] = d.get(k, 0) + c` on a Python dict of counts. -/
def alistAdd : List (String × Nat) → String → Nat → List (String × Nat)
  | [], key, c => [(key, c)]
  | (k, w) :: t, key, c => if k = key then (k, w + c) :: t else (k, w) :: alistAdd t key c

/-- `dict(pairs)`: build a dict from a pair list, later values overriding earlier ones. -/
def alistOfPairs {α : Type} (ps : List (String × α)) : List (String × α) :=
  ps.foldl (fun d p => alistInsert d p.1 p.2) []

/-- Worker for `pySet`: fold the input into an accumulator of first occurrences. -/
def pySetAux : List String → List String → List String
  | acc, [] => acc
  | acc, x :: xs => if x ∈ acc then pySetAux acc xs else pySetAux (acc ++ [x]) xs

/-- `set(l)`, enumerated in one realizable order: first occurrence in `l`. -/
def pySet (l : List String) : List String := pySetAux [] l

/-- The elements `pySetAux` appends to its accumulator while scanning a list. -/
def newElems : List String → List String → List String
  | _, [] => []
  | seen, x :: xs => if x ∈ seen then newElems seen xs else x :: newElems (seen ++ [x]) xs

/-- Insert `x` into a sorted list, before the first element it may precede. -/
def insertSorted {α : Type} (le : α → α → Bool) (x : α) : List α → List α
  | [] => [x]
  | y :: ys => if le x y then x :: y :: ys else y :: insertSorted le x ys

/-- Python's stable `sorted` with boolean comparison `le` ("may come before"). -/
def pySorted {α : Type} (le : α → α → Bool) : List α → List α
  | [] => []
  | x :: xs => insertSorted le x (pySorted le xs)

/-- Python `str.lower()` (character-wise lowercasing). -/
def pyLower (s : String) : String := String.mk (s.data.map Char.toLower)

/-- A character matched by the `\w` of the regex `\b\w+\b`. -/
def isWordChar (c : Char) : Bool := c.isAlphanum || c == '_'

/-- Worker for `findWords`: split a character stream into maximal `\w+` runs.
The second argument is the reversed current run. -/
def splitWordsAux : List Char → List Char → List String
  | [], cur => if cur.isEmpty then [] else [String.mk cur.reverse]
  | c :: cs, cur =>
    if isWordChar c then splitWordsAux cs (c :: cur)
    else if cur.isEmpty then splitWordsAux cs []
    else String.mk cur.reverse :: splitWordsAux cs []

/-- `re.findall(r'\b\w+\b', s)`. -/
def findWords (s : String) : List String := splitWordsAux s.data []

/-- The stop-word set of `HybridSearchEngine._extract_keywords`, in source order. -/
def stop_words : List String :=
  ["the", "a", "an", "and", "or", "but", "in", "on", "at", "to", "for",
   "of", "with", "by", "is", "are", "was", "were", "be", "been", "have",
   "has", "had", "do", "does", "did", "will", "would", "could", "should",
   "may", "might", "must", "can", "this", "that", "these", "those"]

/-- `HybridSearchEngine._extract_keywords`: lowercase, split into `\w+` runs,
drop words of length ≤ 2 and stop words. -/
def extract_keywords (text : String) : List String :=
  (findWords (pyLower text)).filter (fun w => w.length > 2 && !(stop_words.contains w))

/-- One entry of a resume's `experience` list. -/
structure Experience where
  title : String
  company : String
  duration : String
  description : String
deriving DecidableEq

/-- One entry of a resume's `education` list. -/
structure Education where
  degree : String
  field : String
  institution : String
  year : String
deriving DecidableEq

/-- A resume record (spec §6); a missing text field is the empty string,
a missing list field is the empty list, matching Python falsiness checks. -/
structure ResumeRecord where
  id : String
  name : String
  email : String
  phone : String
  summary : String
  skills : List String
  experience : List Experience
  education : List Education
deriving DecidableEq

/-- A job-description record (spec §6). -/
structure JobRecord where
  title : String
  company : String
  description : String
  required_skills : List String
  preferred_skills : List String
  experience_years : String
  responsibilities : List String
  qualifications : List String
deriving DecidableEq

/-- `ResumeRetriever._create_resume_content`. -/
def create_resume_content (resume : ResumeRecord) : String :=
  let parts : List String :=
    (if resume.name = "" then [] else ["Name: " ++ resume.name]) ++
    (if resume.summary = "" then [] else ["Summary: " ++ resume.summary]) ++
    (if resume.skills.isEmpty then []
     else ["Skills: " ++ String.intercalate ", " resume.skills]) ++
    (if resume.experience.isEmpty then []
     else ["Experience: " ++ String.intercalate "; " (resume.experience.map (fun exp =>
       let expText := exp.title ++ " at " ++ exp.company
       if exp.description = "" then expText else expText ++ " - " ++ exp.description))]) ++
    (if resume.education.isEmpty then []
     else ["Education: " ++ String.intercalate "; " (resume.education.map (fun edu =>
       edu.degree ++ " in " ++ edu.field ++ " from " ++ edu.institution))])
  String.intercalate ". " parts

/-- `ResumeRetriever._create_job_description_content`. -/
def create_job_description_content (job_desc : JobRecord) : String :=
  let parts : List String :=
    (if job_desc.title = "" then [] else ["Job Title: " ++ job_desc.title]) ++
    (if job_desc.company = "" then [] else ["Company: " ++ job_desc.company]) ++
    (if job_desc.description = "" then [] else ["Description: " ++ job_desc.description]) ++
    (if job_desc.required_skills.isEmpty then []
     else ["Required Skills: " ++ String.intercalate ", " job_desc.required_skills]) ++
    (if job_desc.preferred_skills.isEmpty then []
     else ["Preferred Skills: " ++ String.intercalate ", " job_desc.preferred_skills]) ++
    (if job_desc.responsibilities.isEmpty then []
     else ["Responsibilities: " ++ String.intercalate "; " job_desc.responsibilities]) ++
    (if job_desc.qualifications.isEmpty then []
     else ["Qualifications: " ++ String.intercalate "; " job_desc.qualifications])
  String.intercalate ". " parts

/-- The metadata dict attached to a document: `{'type': 'resume', 'resume_data': r}`,
`{'type': 'job_description', 'job_data': j}`, or the default `{}`. -/
inductive Metadata where
  | resume (resume_data : ResumeRecord)
  | job_description (job_data : JobRecord)
  | empty
deriving DecidableEq

/-- A document as stored by the engine: `{'id': ..., 'content': ..., 'metadata': ...}`. -/
structure Document where
  id : String
  content : String
  metadata : Metadata
deriving DecidableEq

/-- The external sentence-transformer model (spec §6): `embed` is the
provider's per-text encoding composed with L2 normalisation, `fails` tells on
which batches `encode` raises.  `encodeCalls` counting in `VectorDatabase` is
ghost instrumentation for the batching claim. -/
structure EmbeddingModel where
  embed : String → List ℚ
  fails : List String → Bool

/-- A provider whose `encode` never raises. -/
def EmbeddingModel.total (f : String → List ℚ) : EmbeddingModel :=
  ⟨f, fun _ => false⟩

/-- The state of class `VectorDatabase`: the FAISS flat inner-product index
(stored embeddings, in insertion order), document metadata list and id list.
`encodeCalls` is a ghost counter of `model.encode` invocations. -/
structure VectorDatabase where
  index : List (List ℚ)
  documents : List Document
  doc_ids : List String
  encodeCalls : Nat
deriving DecidableEq

/-- `VectorDatabase.__init__` (the freshly built, empty index). -/
def VectorDatabase.init : VectorDatabase := ⟨[], [], [], 0⟩

/-- `VectorDatabase.add_documents`: one `model.encode` call on the batch of
contents; on success the embeddings, documents and ids are appended.  The
returned flag is true when the `encode` call raised, in which case nothing
was mutated yet (the raise happens before any append). -/
def VectorDatabase.add_documents (m : EmbeddingModel) (db : VectorDatabase)
    (docs : List Document) : VectorDatabase × Bool :=
  let texts := docs.map Document.content
  if m.fails texts then
    ({ db with encodeCalls := db.encodeCalls + 1 }, true)
  else
    ({ index := db.index ++ texts.map m.embed,
       documents := db.documents ++ docs,
       doc_ids := db.doc_ids ++ docs.map Document.id,
       encodeCalls := db.encodeCalls + 1 }, false)

/-- Inner product of two stored vectors. -/
def dot (u v : List ℚ) : ℚ := (List.zipWith (fun a b => a * b) u v).sum

/-- The most negative single-precision float, which FAISS reports as the
score of the padding rows returned when the index holds fewer than `k`
vectors (their label is `-1`). -/
def FLOAT_LOWEST : ℚ := -340282346638528859811704183484516925440

/-- The result-collecting loop of `VectorDatabase.search`.  A row is kept
when `idx < len(self.documents)`; the FAISS padding label `-1` passes this
check whenever that comparison holds (in particular `-1 < 0` on an *empty*
document list), and Python's negative indexing `documents[-1]` then yields
the last document — or raises `IndexError` when the list is empty, which is
the `none` outcome below. -/
def searchRows (docs : List Document) : List (Int × ℚ) → Option (List (Document × ℚ))
  | [] => some []
  | p :: rest =>
    if p.1 < (docs.length : Int) then
      if p.1 < 0 then
        match docs.getLast? with
        | none => none
        | some d => (searchRows docs rest).map (fun rs => (d, p.2) :: rs)
      else
        match docs[p.1.toNat]? with
        | none => none
        | some d => (searchRows docs rest).map (fun rs => (d, p.2) :: rs)
    else searchRows docs rest

/-- `VectorDatabase.search`: embed the query, rank all stored vectors by
inner product descending, and walk the `k` FAISS rows (padded with label
`-1` and score `FLOAT_LOWEST` when fewer than `k` vectors are stored).
`none` is a raised `IndexError`. -/
def VectorDatabase.search (m : EmbeddingModel) (db : VectorDatabase)
    (query : String) (k : Nat) : Option (List (Document × ℚ)) :=
  let q := m.embed query
  let scored : List (Nat × ℚ) := (List.range db.index.length).zip (db.index.map (dot q))
  let ranked := pySorted (fun a b => b.2 ≤ a.2) scored
  let rows : List (Int × ℚ) :=
    (ranked.take k).map (fun p => ((p.1 : Int), p.2)) ++
      List.replicate (k - ranked.length) ((-1 : Int), FLOAT_LOWEST)
  searchRows db.documents rows

/-- `VectorDatabase.get_document_count`. -/
def VectorDatabase.get_document_count (db : VectorDatabase) : Nat :=
  db.documents.length

/-- `VectorDatabase.clear`: resets the FAISS index and empties the metadata
lists (the ghost call counter is unaffected). -/
def VectorDatabase.clear (db : VectorDatabase) : VectorDatabase :=
  { db with index := [], documents := [], doc_ids := [] }

/-- The state after an `encode` call that raised: nothing mutated except the
ghost call counter. -/
def VectorDatabase.addEncodeCall (db : VectorDatabase) : VectorDatabase :=
  { db with encodeCalls := db.encodeCalls + 1 }

/-- The state of class `HybridSearchEngine`: the inner vector database, the
inverted keyword index (term → (document id → count)) and the document dict. -/
structure HybridSearchEngine where
  vector_db : VectorDatabase
  keyword_index : List (String × List (String × Nat))
  documents : List (String × Document)
deriving DecidableEq

/-- `HybridSearchEngine.__init__`. -/
def HybridSearchEngine.init : HybridSearchEngine := ⟨VectorDatabase.init, [], []⟩

/-- `HybridSearchEngine._build_keyword_index`: count the document's keywords
and write `index[term][doc_id] = count` for each distinct term. -/
def build_keyword_index (kidx : List (String × List (String × Nat)))
    (doc_id : String) (content : String) : List (String × List (String × Nat)) :=
  let keywords := extract_keywords content
  (pySet keywords).foldl (fun ix t =>
    alistInsert ix t (alistInsert ((alistLookup ix t).getD []) doc_id (keywords.count t))) kidx

/-- `HybridSearchEngine.add_document`: store the document, extend the keyword
index, then add to the vector database (whose `encode` call may raise; the
first two mutations survive a raise). -/
def HybridSearchEngine.add_document (m : EmbeddingModel) (e : HybridSearchEngine)
    (doc_id : String) (content : String) (metadata : Metadata) :
    HybridSearchEngine × Bool :=
  let document : Document := ⟨doc_id, content, metadata⟩
  let docs := alistInsert e.documents doc_id document
  let kidx := build_keyword_index e.keyword_index doc_id content
  let vres := VectorDatabase.add_documents m e.vector_db [document]
  ({ vector_db := vres.1, keyword_index := kidx, documents := docs }, vres.2)

/-- `HybridSearchEngine.keyword_search`: accumulate posting counts per
document over the query's keywords, then stable-sort by score descending and
truncate to `k`. -/
def HybridSearchEngine.keyword_search (e : HybridSearchEngine)
    (query : String) (k : Nat) : List (String × Nat) :=
  let query_keywords := extract_keywords query
  if query_keywords.isEmpty then []
  else
    let doc_scores := query_keywords.foldl (fun sc t =>
      match alistLookup e.keyword_index t with
      | none => sc
      | some posting => posting.foldl (fun sc2 p => alistAdd sc2 p.1 p.2) sc)
      ([] : List (String × Nat))
    (pySorted (fun a b => b.2 ≤ a.2) doc_scores).take k

/-- `max(values)` over a Python collection, with `1` substituted when the
collection is empty (the `if keyword_scores else 1` of the code). -/
def maxOrOne : List ℚ → ℚ
  | [] => 1
  | v :: vs => vs.foldl max v

/-- `HybridSearchEngine.hybrid_search`: run both sub-searches with a `2 * k`
over-fetch, convert each result list to a score dict (later duplicates
overriding), normalise by the per-modality maximum (with the two guards of
the code substituting `1`), combine with the given weights, stable-sort
descending, truncate to `k`, and attach the stored documents. -/
def HybridSearchEngine.hybrid_search (m : EmbeddingModel) (e : HybridSearchEngine)
    (query : String) (k : Nat) (keyword_weight vector_weight : ℚ) :
    Option (List (Document × ℚ)) :=
  let keyword_results := e.keyword_search query (k * 2)
  match VectorDatabase.search m e.vector_db query (k * 2) with
  | none => none
  | some vector_results =>
    let keyword_scores := alistOfPairs (keyword_results.map (fun p => (p.1, (p.2 : ℚ))))
    let vector_scores := alistOfPairs (vector_results.map (fun p => (p.1.id, p.2)))
    let all_doc_ids := pySet (keyword_scores.map Prod.fst ++ vector_scores.map Prod.fst)
    let max_keyword_raw := maxOrOne (keyword_scores.map Prod.snd)
    let max_vector_raw := maxOrOne (vector_scores.map Prod.snd)
    let max_keyword_score := if max_keyword_raw = 0 then 1 else max_keyword_raw
    let max_vector_score := if max_vector_raw = 0 then 1 else max_vector_raw
    let combined_scores := all_doc_ids.map (fun doc_id =>
      (doc_id,
        keyword_weight * (((alistLookup keyword_scores doc_id).getD 0) / max_keyword_score) +
          vector_weight * (((alistLookup vector_scores doc_id).getD 0) / max_vector_score)))
    let sorted_docs := pySorted (fun a b => b.2 ≤ a.2) combined_scores
    some ((sorted_docs.take k).filterMap (fun p =>
      (alistLookup e.documents p.1).map (fun d => (d, p.2))))

/-- `HybridSearchEngine.get_document_count`. -/
def HybridSearchEngine.get_document_count (e : HybridSearchEngine) : Nat :=
  e.documents.length

/-- The state of class `ResumeRetriever`. -/
structure ResumeRetriever where
  search_engine : HybridSearchEngine
  job_descriptions : List (String × JobRecord)
deriving DecidableEq

/-- `ResumeRetriever.__init__`. -/
def ResumeRetriever.init : ResumeRetriever := ⟨HybridSearchEngine.init, []⟩

/-- `ResumeRetriever.index_resume`: compose the canonical content, pick the
record's id (or a generated `resume_<n>` when the id is falsy), and add the
document with resume metadata. -/
def ResumeRetriever.index_resume (m : EmbeddingModel) (rt : ResumeRetriever)
    (resume : ResumeRecord) : ResumeRetriever × Bool :=
  let content := create_resume_content resume
  let doc_id :=
    if resume.id = "" then "resume_" ++ toString rt.search_engine.documents.length
    else resume.id
  let eres := rt.search_engine.add_document m doc_id content (Metadata.resume resume)
  ({ rt with search_engine := eres.1 }, eres.2)

/-- `ResumeRetriever.index_resumes`: index each resume in turn; a raise from
the embedding provider escapes the loop, leaving the state mutated so far. -/
def ResumeRetriever.index_resumes (m : EmbeddingModel) :
    ResumeRetriever → List ResumeRecord → ResumeRetriever × Bool
  | rt, [] => (rt, false)
  | rt, r :: rest =>
    let step := rt.index_resume m r
    if step.2 then (step.1, true) else ResumeRetriever.index_resumes m step.1 rest

/-- `ResumeRetriever.index_job_description`: store the record under a
generated `job_<n>` id and add the composed content to the same corpus with
job-description metadata; returns the generated id. -/
def ResumeRetriever.index_job_description (m : EmbeddingModel) (rt : ResumeRetriever)
    (job_desc : JobRecord) : (ResumeRetriever × String) × Bool :=
  let content := create_job_description_content job_desc
  let job_id := "job_" ++ toString rt.job_descriptions.length
  let jds := alistInsert rt.job_descriptions job_id job_desc
  let eres := rt.search_engine.add_document m job_id content (Metadata.job_description job_desc)
  ((⟨eres.1, jds⟩, job_id), eres.2)

/-- A candidate returned by `retrieve_candidates`: the original resume record
annotated with the fused score. -/
structure Candidate where
  resume_data : ResumeRecord
  hybrid_score : ℚ
deriving DecidableEq

/-- `ResumeRetriever.retrieve_candidates`: hybrid search with the default
weights 0.3 / 0.7, keeping only documents whose metadata type is resume.
`none` is an exception escaping to the caller. -/
def ResumeRetriever.retrieve_candidates (m : EmbeddingModel) (rt : ResumeRetriever)
    (job_desc : JobRecord) (top_k : Nat) : Option (List Candidate) :=
  let query_content := create_job_description_content job_desc
  (rt.search_engine.hybrid_search m query_content top_k (3/10) (7/10)).map
    (fun results => results.filterMap (fun p =>
      match p.1.metadata with
      | Metadata.resume r => some ⟨r, p.2⟩
      | _ => none))

/-- One public indexing call on the retriever (spec §6). -/
inductive RetrieverOp where
  | indexResumes (resumes : List ResumeRecord)
  | indexJobDescription (job_desc : JobRecord)

/-- Apply one indexing call (discarding the raise flag and the returned id). -/
def ResumeRetriever.applyOp (m : EmbeddingModel) (rt : ResumeRetriever) :
    RetrieverOp → ResumeRetriever
  | RetrieverOp.indexResumes rs => (rt.index_resumes m rs).1
  | RetrieverOp.indexJobDescription jd => (rt.index_job_description m jd).1.1

/-- Run a sequence of indexing calls. -/
def ResumeRetriever.runOps (m : EmbeddingModel) :
    ResumeRetriever → List RetrieverOp → ResumeRetriever
  | rt, [] => rt
  | rt, op :: ops => ResumeRetriever.runOps m (rt.applyOp m op) ops

/-- A number of resume records passed through `indexResumes` calls, in order. -/
def resumesOf : List RetrieverOp → List ResumeRecord
  | [] => []
  | RetrieverOp.indexResumes rs :: ops => rs ++ resumesOf ops
  | RetrieverOp.indexJobDescription _ :: ops => resumesOf ops

/-- Written from the specification text (§4.5, claim C5), not from the code:
fusion of two sub-search result lists.  The per-modality maximum is taken as
1 when the result list is empty or all its scores are zero; every document
id appearing in either list gets `kw * normK + vw * normV` with an absent
score treated as 0; the output is sorted by combined score descending with
ties broken by the Document Store insertion order `storeOrder` (realised by
enumerating candidates in `storeOrder` and sorting stably), truncated to `k`. -/
def specFuse (keywordResults vectorResults : List (String × ℚ)) (k : Nat)
    (kw vw : ℚ) (storeOrder : List String) : List (String × ℚ) :=
  let kscores := keywordResults.map Prod.snd
  let vscores := vectorResults.map Prod.snd
  let maxK := if kscores.all (fun s => s == 0) then 1 else (kscores.max?).getD 1
  let maxV := if vscores.all (fun s => s == 0) then 1 else (vscores.max?).getD 1
  let keywordScore := fun id => ((keywordResults.find? (fun p => p.1 == id)).map Prod.snd).getD 0
  let vectorScore := fun id => ((vectorResults.find? (fun p => p.1 == id)).map Prod.snd).getD 0
  let ids := storeOrder.filter (fun id =>
    keywordResults.any (fun p => p.1 == id) || vectorResults.any (fun p => p.1 == id))
  let combined := ids.map (fun id =>
    (id, kw * (keywordScore id / maxK) + vw * (vectorScore id / maxV)))
  (pySorted (fun a b => b.2 ≤ a.2) combined).take k

/-- The fusion algorithm as amended to match the code (claim C5): each result
list is first collapsed into a score dictionary (later duplicates, such as
the FAISS padding rows, overriding earlier scores); a per-modality maximum is
taken as 1 when its *dictionary* is empty or its maximum is zero; candidate
ids are enumerated by first occurrence in the keyword results followed by the
vector results (one realizable iteration order of the CPython set the code
builds); stable sort descending; truncate to `k`. -/
def specFuseAmended (keywordResults vectorResults : List (String × ℚ)) (k : Nat)
    (kw vw : ℚ) : List (String × ℚ) :=
  let kdict := alistOfPairs keywordResults
  let vdict := alistOfPairs vectorResults
  let maxKraw := ((kdict.map Prod.snd).max?).getD 1
  let maxVraw := ((vdict.map Prod.snd).max?).getD 1
  let maxK := if maxKraw = 0 then 1 else maxKraw
  let maxV := if maxVraw = 0 then 1 else maxVraw
  let ids := pySet (keywordResults.map Prod.fst ++ vectorResults.map Prod.fst)
  let combined := ids.map (fun id =>
    (id, kw * (((alistLookup kdict id).getD 0) / maxK) +
      vw * (((alistLookup vdict id).getD 0) / maxV)))
  (pySorted (fun a b => b.2 ≤ a.2) combined).take k

/-- Written from the claim text (C7), not from the code: keyword search that
scores each matching document as the sum, over the query's extracted terms,
of that term's posting count for the document, sorts by score descending with
ties broken by the Document Store insertion order `storeOrder`, truncates to
`k`, and returns `[]` on a keyword-less query. -/
def specKeywordSearch (kidx : List (String × List (String × Nat)))
    (storeOrder : List String) (query : String) (k : Nat) : List (String × Nat) :=
  let terms := extract_keywords query
  if terms.isEmpty then []
  else
    let score := fun id =>
      (terms.map (fun t => (alistLookup ((alistLookup kidx t).getD []) id).getD 0)).sum
    let scored := (storeOrder.filter (fun id => 0 < score id)).map (fun id => (id, score id))
    (pySorted (fun a b => b.2 ≤ a.2) scored).take k

/-- The candidate ids of a keyword search: every id appearing in the posting
of some extracted query term, enumerated by first occurrence while the
query's terms are scanned in order (the realizable order in which the code's
`doc_scores` dict acquires its keys). -/
def keywordCandidates (kidx : List (String × List (String × Nat)))
    (qks : List String) : List String :=
  pySet (qks.flatMap (fun t => ((alistLookup kidx t).getD []).map Prod.fst))

/-- The spec's keyword-search algorithm (claim C7) amended only in candidate
order: every matched document — each id appearing in the posting of some
extracted query term — is scored as the sum over the query's extracted terms
of that term's posting count for it, the full list is stably sorted by score
descending with ties in first-contribution order (`keywordCandidates`)
rather than store insertion order, and truncated to `k`; a keyword-less
query yields `[]`. -/
def specKeywordSearchAmended (kidx : List (String × List (String × Nat)))
    (query : String) (k : Nat) : List (String × Nat) :=
  let terms := extract_keywords query
  if terms.isEmpty then []
  else
    let score := fun id =>
      (terms.map (fun t => (alistLookup ((alistLookup kidx t).getD []) id).getD 0)).sum
    (pySorted (fun a b => b.2 ≤ a.2)
      ((keywordCandidates kidx terms).map (fun id => (id, score id)))).take k

/-- A provider embedding every text as the (already normalised) vector `[1]`
and never failing; realizable, and convenient for concrete scenarios. -/
def constModel : EmbeddingModel := EmbeddingModel.total (fun _ => [1])

/-- A resume whose composed content is `"Name: python"`. -/
def exResume : ResumeRecord := ⟨"r1", "python", "", "", "", [], [], []⟩

/-- A second resume whose composed content is `"Name: java"`. -/
def exResume2 : ResumeRecord := ⟨"r2", "java", "", "", "", [], [], []⟩

/-- A job record whose composed content is `"Job Title: python"`. -/
def exJob : JobRecord := ⟨"python", "", "", [], [], "", [], []⟩

/-- A retriever holding the single resume `exResume`. -/
def populatedRetriever : ResumeRetriever :=
  (ResumeRetriever.init.index_resumes constModel [exResume]).1

/-- `populatedRetriever` after also indexing `exJob` into the same corpus. -/
def mixedRetriever : ResumeRetriever :=
  ((populatedRetriever.index_job_description constModel exJob).1).1

/-- `populatedRetriever` after `VectorDatabase.clear` on its inner vector
database — the only clearing operation the source defines. -/
def clearedRetriever : ResumeRetriever :=
  { populatedRetriever with search_engine :=
      { populatedRetriever.search_engine with
          vector_db := populatedRetriever.search_engine.vector_db.clear } }

/-- An engine holding `d1 = "beta"` then `d2 = "alpha"`: a combined-score tie
whose stored insertion order is `d1, d2`. -/
def tieEngine : HybridSearchEngine :=
  ((HybridSearchEngine.init.add_document constModel "d1" "beta" Metadata.empty).1.add_document
      constModel "d2" "alpha" Metadata.empty).1

/-- An engine where `d1` was indexed with content `"python"` and then
re-indexed under the same id with content `"java"`. -/
def reindexEngine : HybridSearchEngine :=
  ((HybridSearchEngine.init.add_document constModel "d1" "python" Metadata.empty).1.add_document
      constModel "d1" "java" Metadata.empty).1

/-- Two documents sharing no keywords with the query `"ssss"`. -/
def negEngine : HybridSearchEngine :=
  ((HybridSearchEngine.init.add_document constModel "dq" "qqqq" Metadata.empty).1.add_document
      constModel "dr" "rrrr" Metadata.empty).1

/-- A provider that raises exactly on the batch holding `exResume`'s content. -/
def failModel : EmbeddingModel :=
  ⟨fun _ => [1], fun ts => ts == [create_resume_content exResume]⟩

/-- The document `index_resume` stores for a record with a non-empty id. -/
def mkResumeDoc (r : ResumeRecord) : Document :=
  ⟨r.id, create_resume_content r, Metadata.resume r⟩

/-- A throwaway document used as the default of `List.getD`. -/
def defaultDoc : Document := ⟨"", "", Metadata.empty⟩

theorem foldl_fixed {α β : Type} (f : α → β → α) (h : ∀ x y, f x y = x) :
    ∀ (l : List β) (a : α), l.foldl f a = a
  | [], _ => rfl
  | x :: xs, a => by rw [List.foldl_cons, h]; exact foldl_fixed f h xs a

theorem insertSorted_perm {α : Type} (le : α → α → Bool) (x : α) :
    ∀ l : List α, (insertSorted le x l).Perm (x :: l)
  | [] => List.Perm.refl _
  | y :: ys => by
    by_cases h : le x y = true
    · simp [insertSorted, h]
    · simp only [insertSorted, h, if_false]
      exact ((insertSorted_perm le x ys).cons y).trans (List.Perm.swap x y ys)

theorem pySorted_perm {α : Type} (le : α → α → Bool) :
    ∀ l : List α, (pySorted le l).Perm l
  | [] => List.Perm.refl _
  | x :: xs => (insertSorted_perm le x (pySorted le xs)).trans ((pySorted_perm le xs).cons x)

theorem pySorted_length {α : Type} (le : α → α → Bool) (l : List α) :
    (pySorted le l).length = l.length :=
  (pySorted_perm le l).length_eq

theorem mem_pySorted {α : Type} (le : α → α → Bool) (l : List α) (a : α) :
    a ∈ pySorted le l ↔ a ∈ l :=
  (pySorted_perm le l).mem_iff

theorem insertSorted_pairwise {α : Type} {le : α → α → Bool}
    (htrans : ∀ a b c, le a b = true → le b c = true → le a c = true)
    (htot : ∀ a b, le a b = true ∨ le b a = true) (x : α) :
    ∀ l : List α, l.Pairwise (fun a b => le a b = true) →
      (insertSorted le x l).Pairwise (fun a b => le a b = true)
  | [], _ => by simp [insertSorted]
  | y :: ys, hp => by
    rw [List.pairwise_cons] at hp
    obtain ⟨hy, hys⟩ := hp
    by_cases h : le x y = true
    · rw [insertSorted, if_pos h, List.pairwise_cons]
      refine ⟨fun b hb => ?_, List.pairwise_cons.mpr ⟨hy, hys⟩⟩
      rcases List.mem_cons.mp hb with rfl | hb
      · exact h
      · exact htrans x y b h (hy b hb)
    · rw [insertSorted, if_neg h, List.pairwise_cons]
      refine ⟨fun b hb => ?_, insertSorted_pairwise htrans htot x ys hys⟩
      rcases List.mem_cons.mp ((insertSorted_perm le x ys).mem_iff.mp hb) with rfl | hb
      · rcases htot b y with h' | h'
        · exact absurd h' h
        · exact h'
      · exact hy b hb

theorem pySorted_pairwise {α : Type} {le : α → α → Bool}
    (htrans : ∀ a b c, le a b = true → le b c = true → le a c = true)
    (htot : ∀ a b, le a b = true ∨ le b a = true) :
    ∀ l : List α, (pySorted le l).Pairwise (fun a b => le a b = true)
  | [] => List.Pairwise.nil
  | x :: xs => insertSorted_pairwise htrans htot x _ (pySorted_pairwise htrans htot xs)

theorem alistLookup_mem {α : Type} :
    ∀ {l : List (String × α)} {k : String} {v : α},
      alistLookup l k = some v → (k, v) ∈ l := by
  intro l
  induction l with
  | nil => intro k v h; simp [alistLookup] at h
  | cons p t ih =>
    intro k v h
    by_cases he : p.1 = k
    · subst he
      rw [show p = (p.1, p.2) from rfl, alistLookup, if_pos rfl] at h
      cases h
      exact List.mem_cons_self _ _
    · rw [show p = (p.1, p.2) from rfl, alistLookup, if_neg he] at h
      exact List.mem_cons_of_mem _ (ih h)

theorem alistLookup_isSome_iff {α : Type} :
    ∀ (l : List (String × α)) (k : String),
      (alistLookup l k).isSome = true ↔ k ∈ l.map Prod.fst
  | [], k => by simp [alistLookup]
  | (k', v) :: t, k => by
    by_cases he : k' = k
    · subst he; simp [alistLookup]
    · rw [alistLookup, if_neg he]
      simp only [List.map_cons, List.mem_cons]
      rw [alistLookup_isSome_iff t k]
      constructor
      · exact Or.inr
      · rintro (rfl | h)
        · exact absurd rfl he
        · exact h

theorem alistLookup_insert_self {α : Type} :
    ∀ (l : List (String × α)) (k : String) (v : α),
      alistLookup (alistInsert l k v) k = some v
  | [], k, v => by simp [alistInsert, alistLookup]
  | (k', w) :: t, k, v => by
    by_cases he : k' = k
    · subst he; rw [alistInsert, if_pos rfl, alistLookup, if_pos rfl]
    · rw [alistInsert, if_neg he, alistLookup, if_neg he]
      exact alistLookup_insert_self t k v

theorem alistLookup_insert_ne {α : Type} {k k' : String} (h : k' ≠ k) :
    ∀ (l : List (String × α)) (v : α),
      alistLookup (alistInsert l k v) k' = alistLookup l k'
  | [], v => by
    simp only [alistInsert, alistLookup]
    rw [if_neg (fun hh => h hh.symm)]
  | (k'', w) :: t, v => by
    by_cases he : k'' = k
    · subst he
      rw [alistInsert, if_pos rfl, alistLookup, alistLookup]
      by_cases he' : k'' = k'
      · exact absurd he'.symm h
      · rw [if_neg he', if_neg he']
    · rw [alistInsert, if_neg he, alistLookup, alistLookup]
      by_cases he' : k'' = k'
      · rw [if_pos he', if_pos he']
      · rw [if_neg he', if_neg he']
        exact alistLookup_insert_ne h t v

theorem alistInsert_map_fst {α : Type} :
    ∀ (l : List (String × α)) (k : String) (v : α),
      (alistInsert l k v).map Prod.fst =
        if k ∈ l.map Prod.fst then l.map Prod.fst else l.map Prod.fst ++ [k]
  | [], k, v => by simp [alistInsert]
  | (k', w) :: t, k, v => by
    by_cases he : k' = k
    · subst he; simp [alistInsert]
    · rw [alistInsert, if_neg he]
      simp only [List.map_cons, List.mem_cons]
      rw [alistInsert_map_fst t k v]
      by_cases hm : k ∈ t.map Prod.fst
      · rw [if_pos hm, if_pos (Or.inr hm)]
      · rw [if_neg hm, if_neg ?_]
        · simp
        · rintro (hh | hh)
          · exact he hh.symm
          · exact hm hh

theorem alistInsert_of_not_mem {α : Type} :
    ∀ {l : List (String × α)} {k : String} (v : α), k ∉ l.map Prod.fst →
      alistInsert l k v = l ++ [(k, v)]
  | [], k, v, _ => rfl
  | (k', w) :: t, k, v, h => by
    have hne : k' ≠ k := by
      intro hh
      exact h (by simp [hh])
    rw [alistInsert, if_neg hne, List.cons_append]
    rw [alistInsert_of_not_mem v (fun hh => h (List.mem_cons_of_mem _ hh))]

theorem mem_alistInsert {α : Type} :
    ∀ (l : List (String × α)) (k : String) (v : α) (q : String × α),
      q ∈ alistInsert l k v → q ∈ l ∨ q = (k, v)
  | [], k, v, q, h => by simpa [alistInsert] using h
  | (k', w) :: t, k, v, q, h => by
    by_cases he : k' = k
    · subst he
      rw [alistInsert, if_pos rfl] at h
      rcases List.mem_cons.mp h with rfl | h
      · exact Or.inr rfl
      · exact Or.inl (List.mem_cons_of_mem _ h)
    · rw [alistInsert, if_neg he] at h
      rcases List.mem_cons.mp h with rfl | h
      · exact Or.inl (List.mem_cons_self _ _)
      · rcases mem_alistInsert t k v q h with h | h
        · exact Or.inl (List.mem_cons_of_mem _ h)
        · exact Or.inr h

theorem alistInsert_length_of_mem {α : Type} :
    ∀ {l : List (String × α)} {k : String} (v : α), k ∈ l.map Prod.fst →
      (alistInsert l k v).length = l.length
  | [], k, v, h => by simp at h
  | (k', w) :: t, k, v, h => by
    by_cases he : k' = k
    · subst he; rw [alistInsert, if_pos rfl]; rfl
    · rw [alistInsert, if_neg he]
      simp only [List.length_cons]
      rw [alistInsert_length_of_mem v ?_]
      simp only [List.map_cons, List.mem_cons] at h
      rcases h with h | h
      · exact absurd h.symm he
      · exact h

theorem alistAdd_map_fst :
    ∀ (l : List (String × Nat)) (k : String) (c : Nat),
      (alistAdd l k c).map Prod.fst =
        if k ∈ l.map Prod.fst then l.map Prod.fst else l.map Prod.fst ++ [k]
  | [], k, c => by simp [alistAdd]
  | (k', w) :: t, k, c => by
    by_cases he : k' = k
    · subst he; simp [alistAdd]
    · rw [alistAdd, if_neg he]
      simp only [List.map_cons, List.mem_cons]
      rw [alistAdd_map_fst t k c]
      by_cases hm : k ∈ t.map Prod.fst
      · rw [if_pos hm, if_pos (Or.inr hm)]
      · rw [if_neg hm, if_neg ?_]
        · simp
        · rintro (hh | hh)
          · exact he hh.symm
          · exact hm hh

theorem alistLookup_add_self :
    ∀ (l : List (String × Nat)) (k : String) (c : Nat),
      alistLookup (alistAdd l k c) k = some ((alistLookup l k).getD 0 + c)
  | [], k, c => by simp [alistAdd, alistLookup]
  | (k', w) :: t, k, c => by
    by_cases he : k' = k
    · subst he
      rw [alistAdd, if_pos rfl, alistLookup, if_pos rfl, alistLookup, if_pos rfl]
      rfl
    · rw [alistAdd, if_neg he, alistLookup, if_neg he, alistLookup, if_neg he]
      exact alistLookup_add_self t k c

theorem alistLookup_add_ne {k k' : String} (h : k' ≠ k) :
    ∀ (l : List (String × Nat)) (c : Nat),
      alistLookup (alistAdd l k c) k' = alistLookup l k'
  | [], c => by
    simp only [alistAdd, alistLookup]
    rw [if_neg (fun hh => h hh.symm)]
  | (k'', w) :: t, c => by
    by_cases he : k'' = k
    · subst he
      rw [alistAdd, if_pos rfl, alistLookup, alistLookup]
      rw [if_neg (fun hh => h hh.symm), if_neg (fun hh => h hh.symm)]
    · rw [alistAdd, if_neg he, alistLookup, alistLookup]
      by_cases he' : k'' = k'
      · rw [if_pos he', if_pos he']
      · rw [if_neg he', if_neg he']
        exact alistLookup_add_ne h t c

theorem mem_foldl_alistInsert {α : Type} :
    ∀ (ps : List (String × α)) (d : List (String × α)) (q : String × α),
      q ∈ ps.foldl (fun d p => alistInsert d p.1 p.2) d → q ∈ d ∨ q ∈ ps
  | [], d, q, h => Or.inl h
  | p :: rest, d, q, h => by
    rcases mem_foldl_alistInsert rest (alistInsert d p.1 p.2) q h with h | h
    · rcases mem_alistInsert d p.1 p.2 q h with h | h
      · exact Or.inl h
      · exact Or.inr (by simp [h])
    · exact Or.inr (List.mem_cons_of_mem _ h)

theorem mem_alistOfPairs {α : Type} (ps : List (String × α)) (q : String × α)
    (h : q ∈ alistOfPairs ps) : q ∈ ps := by
  rcases mem_foldl_alistInsert ps [] q h with h | h
  · simp at h
  · exact h

theorem pySetAux_append (l₁ l₂ : List String) :
    ∀ acc, pySetAux acc (l₁ ++ l₂) = pySetAux (pySetAux acc l₁) l₂ := by
  induction l₁ with
  | nil => intro acc; rfl
  | cons x xs ih =>
    intro acc
    rw [List.cons_append, pySetAux, pySetAux]
    by_cases h : x ∈ acc
    · rw [if_pos h, if_pos h, ih]
    · rw [if_neg h, if_neg h, ih]

theorem mem_pySetAux : ∀ (l acc : List String) (x : String),
    x ∈ pySetAux acc l ↔ x ∈ acc ∨ x ∈ l
  | [], acc, x => by simp [pySetAux]
  | y :: ys, acc, x => by
    rw [pySetAux]
    by_cases h : y ∈ acc
    · rw [if_pos h, mem_pySetAux ys acc x]
      constructor
      · rintro (h' | h')
        · exact Or.inl h'
        · exact Or.inr (List.mem_cons_of_mem _ h')
      · rintro (h' | h')
        · exact Or.inl h'
        · rcases List.mem_cons.mp h' with rfl | h'
          · exact Or.inl h
          · exact Or.inr h'
    · rw [if_neg h, mem_pySetAux ys (acc ++ [y]) x]
      simp only [List.mem_append, List.mem_singleton, List.mem_cons]
      tauto

theorem pySetAux_nodup : ∀ (l acc : List String), acc.Nodup → (pySetAux acc l).Nodup
  | [], acc, h => h
  | y :: ys, acc, h => by
    rw [pySetAux]
    by_cases hm : y ∈ acc
    · rw [if_pos hm]; exact pySetAux_nodup ys acc h
    · rw [if_neg hm]
      refine pySetAux_nodup ys (acc ++ [y]) ?_
      refine List.Nodup.append h (List.nodup_singleton y) ?_
      intro a ha hb
      simp only [List.mem_singleton] at hb
      subst hb
      exact hm ha

theorem mem_pySet (l : List String) (x : String) : x ∈ pySet l ↔ x ∈ l := by
  rw [pySet, mem_pySetAux]
  simp

theorem pySet_nodup (l : List String) : (pySet l).Nodup :=
  pySetAux_nodup l [] List.nodup_nil

theorem pySetAux_eq_append_newElems :
    ∀ (l seen : List String), pySetAux seen l = seen ++ newElems seen l
  | [], seen => by simp [pySetAux, newElems]
  | x :: xs, seen => by
    rw [pySetAux, newElems]
    by_cases h : x ∈ seen
    · rw [if_pos h, if_pos h, pySetAux_eq_append_newElems xs seen]
    · rw [if_neg h, if_neg h, pySetAux_eq_append_newElems xs (seen ++ [x])]
      simp

theorem pySetAux_skip : ∀ (s acc : List String), (∀ x ∈ s, x ∈ acc) → pySetAux acc s = acc
  | [], acc, _ => rfl
  | x :: xs, acc, h => by
    rw [pySetAux, if_pos (h x (List.mem_cons_self _ _))]
    exact pySetAux_skip xs acc (fun y hy => h y (List.mem_cons_of_mem _ hy))

theorem pySetAux_newElems_eq :
    ∀ (v seen acc : List String), (∀ x ∈ seen, x ∈ acc) →
      pySetAux acc (newElems seen v) = pySetAux acc v
  | [], _, _, _ => rfl
  | x :: xs, seen, acc, h => by
    rw [newElems]
    by_cases hx : x ∈ seen
    · rw [if_pos hx]
      rw [show pySetAux acc (x :: xs) = pySetAux acc xs from by
        rw [pySetAux, if_pos (h x hx)]]
      exact pySetAux_newElems_eq xs seen acc h
    · rw [if_neg hx]
      have hstep : ∀ t : List String, pySetAux acc (x :: t)
          = pySetAux (if x ∈ acc then acc else acc ++ [x]) t := by
        intro t
        rw [pySetAux]
        by_cases ha : x ∈ acc
        · rw [if_pos ha, if_pos ha]
        · rw [if_neg ha, if_neg ha]
      rw [hstep, hstep]
      refine pySetAux_newElems_eq xs (seen ++ [x]) _ ?_
      intro y hy
      by_cases ha : x ∈ acc
      · rw [if_pos ha]
        rcases List.mem_append.mp hy with hy2 | hy2
        · exact h y hy2
        · simp only [List.mem_singleton] at hy2
          subst hy2
          exact ha
      · rw [if_neg ha]
        rcases List.mem_append.mp hy with hy2 | hy2
        · exact List.mem_append_left _ (h y hy2)
        · simp only [List.mem_singleton] at hy2
          exact List.mem_append_right _ (by simp [hy2])

theorem pySetAux_of_fresh_nodup :
    ∀ (l acc : List String), l.Nodup → (∀ x ∈ l, x ∉ acc) → pySetAux acc l = acc ++ l
  | [], acc, _, _ => by simp [pySetAux]
  | x :: xs, acc, hnd, hf => by
    rw [pySetAux, if_neg (hf x (List.mem_cons_self _ _))]
    rw [List.nodup_cons] at hnd
    rw [pySetAux_of_fresh_nodup xs (acc ++ [x]) hnd.2 ?_]
    · simp
    · intro y hy hmem
      rcases List.mem_append.mp hmem with hm | hm
      · exact hf y (List.mem_cons_of_mem _ hy) hm
      · simp only [List.mem_singleton] at hm
        subst hm
        exact hnd.1 hy

theorem pySet_pySet_append (a b : List String) :
    pySet (pySet a ++ pySet b) = pySet (a ++ b) := by
  show pySetAux [] (pySet a ++ pySet b) = pySetAux [] (a ++ b)
  rw [pySetAux_append, pySetAux_append]
  have h1 : pySetAux [] (pySet a) = pySet a := by
    rw [pySetAux_of_fresh_nodup (pySet a) [] (pySet_nodup a) (by simp)]
    simp
  rw [h1]
  have h2 : pySet b = newElems [] b := by
    rw [pySet, pySetAux_eq_append_newElems b []]
    simp
  rw [h2]
  rw [pySetAux_newElems_eq b [] (pySet a) (by simp)]
  rfl

theorem maxOrOne_eq_max_getD : ∀ l : List ℚ, maxOrOne l = (l.max?).getD 1
  | [] => rfl
  | v :: vs => by simp [maxOrOne, List.max?]

theorem le_foldl_max : ∀ (l : List ℚ) (a : ℚ), a ≤ l.foldl max a
  | [], a => le_refl a
  | x :: xs, a => le_trans (le_max_left a x) (le_foldl_max xs (max a x))

theorem mem_le_foldl_max : ∀ (l : List ℚ) (a x : ℚ), x ∈ l → x ≤ l.foldl max a
  | [], _, _, h => absurd h (List.not_mem_nil _)
  | y :: ys, a, x, h => by
    rcases List.mem_cons.mp h with rfl | h
    · exact le_trans (le_max_right a x) (le_foldl_max ys (max a x))
    · exact mem_le_foldl_max ys (max a y) x h

theorem mem_le_maxOrOne (l : List ℚ) (x : ℚ) (h : x ∈ l) : x ≤ maxOrOne l := by
  cases l with
  | nil => cases h
  | cons v vs =>
    rw [maxOrOne]
    rcases List.mem_cons.mp h with rfl | h
    · exact le_foldl_max vs x
    · exact mem_le_foldl_max vs v x h

theorem length_filterMap_of_some {α β : Type} (f : α → Option β) :
    ∀ l : List α, (∀ a ∈ l, (f a).isSome = true) → (l.filterMap f).length = l.length
  | [], _ => rfl
  | x :: xs, h => by
    have hx := h x (List.mem_cons_self _ _)
    rw [List.filterMap_cons]
    cases hfx : f x with
    | none => rw [hfx] at hx; simp at hx
    | some b =>
      rw [List.length_cons]
      rw [length_filterMap_of_some f xs (fun a ha => h a (List.mem_cons_of_mem _ ha))]
      rfl

theorem foldl_alistInsert_lookup_not_mem {α : Type}
    (g : List (String × α) → String → α) :
    ∀ (l : List String) (d : List (String × α)) (t : String), t ∉ l →
      alistLookup (l.foldl (fun ix u => alistInsert ix u (g ix u)) d) t = alistLookup d t
  | [], _, _, _ => rfl
  | u :: us, d, t, h => by
    rw [List.foldl_cons]
    rw [foldl_alistInsert_lookup_not_mem g us _ t (fun hh => h (List.mem_cons_of_mem _ hh))]
    exact alistLookup_insert_ne (fun hh => h (by simp [hh])) d (g d u)

theorem foldl_alistInsert_lookup_mem {α : Type}
    (g : List (String × α) → String → α) :
    ∀ (l : List String) (d : List (String × α)) (t : String), l.Nodup → t ∈ l →
      ∃ d', alistLookup (l.foldl (fun ix u => alistInsert ix u (g ix u)) d) t = some (g d' t)
  | [], _, t, _, ht => absurd ht (List.not_mem_nil t)
  | u :: us, d, t, hnd, ht => by
    rw [List.nodup_cons] at hnd
    rw [List.foldl_cons]
    by_cases he : u = t
    · subst he
      refine ⟨d, ?_⟩
      rw [foldl_alistInsert_lookup_not_mem g us _ u hnd.1]
      exact alistLookup_insert_self d u (g d u)
    · rcases List.mem_cons.mp ht with rfl | ht
      · exact absurd rfl he
      · exact foldl_alistInsert_lookup_mem g us _ t hnd.2 ht

theorem build_keyword_index_posting_mem (kidx : List (String × List (String × Nat)))
    (doc_id content t : String) (ht : t ∈ extract_keywords content) :
    ∃ posting, alistLookup (build_keyword_index kidx doc_id content) t = some posting ∧
      alistLookup posting doc_id = some ((extract_keywords content).count t) := by
  obtain ⟨d', hd'⟩ := foldl_alistInsert_lookup_mem
    (fun ix u => alistInsert ((alistLookup ix u).getD []) doc_id ((extract_keywords content).count u))
    (pySet (extract_keywords content)) kidx t (pySet_nodup _) ((mem_pySet _ _).mpr ht)
  exact ⟨_, hd', alistLookup_insert_self _ _ _⟩

theorem build_keyword_index_lookup_not_mem (kidx : List (String × List (String × Nat)))
    (doc_id content t : String) (ht : t ∉ extract_keywords content) :
    alistLookup (build_keyword_index kidx doc_id content) t = alistLookup kidx t :=
  foldl_alistInsert_lookup_not_mem
    (fun ix u => alistInsert ((alistLookup ix u).getD []) doc_id ((extract_keywords content).count u))
    (pySet (extract_keywords content)) kidx t (fun hh => ht ((mem_pySet _ _).mp hh))

theorem mem_alistInsert_map_fst_self {α : Type} (l : List (String × α)) (k : String) (v : α) :
    k ∈ (alistInsert l k v).map Prod.fst := by
  rw [alistInsert_map_fst]
  by_cases h : k ∈ l.map Prod.fst
  · rw [if_pos h]; exact h
  · rw [if_neg h]; exact List.mem_append_right _ (List.mem_singleton_self k)

/-- C3 counterexample: indexing id `d1` with content `"python"` and then
re-indexing it with content `"java"` leaves the document count at 1, but a
keyword search for `"python"` still returns `d1` (the stale posting was not
removed), contradicting the claim that a subsequent keyword search reflects
only the second content; the vector index moreover holds two entries. -/
theorem C3_counterexample :
    reindexEngine.get_document_count = 1 ∧
    reindexEngine.keyword_search "python" 10 = [("d1", 1)] ∧
    ¬ reindexEngine.keyword_search "python" 10 = [] ∧
    reindexEngine.vector_db.documents.length = 2 := by
  with_unfolding_all decide

/-- C3 (amended): re-indexing an existing id replaces the prior Document
record (the document count is unchanged and the stored record carries the new
content) and overwrites the postings of every term of the new content, but
postings of terms absent from the new content are NOT removed (stale postings
survive), and the Vector Index appends a second entry for the id instead of
replacing the first. -/
theorem C3_reindex_partially_replaces (m : EmbeddingModel) (e : HybridSearchEngine)
    (id c1 c2 : String) (md1 md2 : Metadata) (hm : m.fails [c2] = false) :
    let e1 := (e.add_document m id c1 md1).1
    let e2 := (e1.add_document m id c2 md2).1
    e2.get_document_count = e1.get_document_count ∧
    alistLookup e2.documents id = some ⟨id, c2, md2⟩ ∧
    (∀ t ∈ extract_keywords c2,
      ∃ posting, alistLookup e2.keyword_index t = some posting ∧
        alistLookup posting id = some ((extract_keywords c2).count t)) ∧
    (∀ t, t ∉ extract_keywords c2 →
      alistLookup e2.keyword_index t = alistLookup e1.keyword_index t) ∧
    e2.vector_db.documents.length = e1.vector_db.documents.length + 1 := by
  intro e1 e2
  have hdocs : e2.documents = alistInsert e1.documents id ⟨id, c2, md2⟩ := rfl
  have hkidx : e2.keyword_index = build_keyword_index e1.keyword_index id c2 := rfl
  have hdocs1 : e1.documents = alistInsert e.documents id ⟨id, c1, md1⟩ := rfl
  refine ⟨?_, ?_, ?_, ?_, ?_⟩
  · show e2.documents.length = e1.documents.length
    rw [hdocs]
    refine alistInsert_length_of_mem _ ?_
    rw [hdocs1]
    exact mem_alistInsert_map_fst_self _ _ _
  · rw [hdocs]
    exact alistLookup_insert_self _ _ _
  · intro t ht
    rw [hkidx]
    exact build_keyword_index_posting_mem _ _ _ _ ht
  · intro t ht
    rw [hkidx]
    exact build_keyword_index_lookup_not_mem _ _ _ _ ht
  · show ((VectorDatabase.add_documents m e1.vector_db [⟨id, c2, md2⟩]).1).documents.length
      = e1.vector_db.documents.length + 1
    rw [VectorDatabase.add_documents]
    simp [hm]

theorem C3_reindex_partially_replaces_witness :
    constModel.fails ["java"] = false ∧
    (let e1 := (HybridSearchEngine.init.add_document constModel "d1" "python" Metadata.empty).1
     let e2 := (e1.add_document constModel "d1" "java" Metadata.empty).1
     e2.get_document_count = e1.get_document_count ∧
     alistLookup e2.documents "d1" = some ⟨"d1", "java", Metadata.empty⟩ ∧
     (∀ t ∈ extract_keywords "java",
       ∃ posting, alistLookup e2.keyword_index t = some posting ∧
         alistLookup posting "d1" = some ((extract_keywords "java").count t)) ∧
     (∀ t, t ∉ extract_keywords "java" →
       alistLookup e2.keyword_index t = alistLookup e1.keyword_index t) ∧
     e2.vector_db.documents.length = e1.vector_db.documents.length + 1) :=
  ⟨rfl, C3_reindex_partially_replaces constModel HybridSearchEngine.init
    "d1" "python" "java" Metadata.empty Metadata.empty rfl⟩

/-- C4 counterexample: when the Embedding Provider raises during
`index_resumes`, the error is surfaced, but the state is NOT left exactly as
before the indexing operation began — the document store and keyword index
already hold the failing document. -/
theorem C4_counterexample :
    (ResumeRetriever.init.index_resumes failModel [exResume]).2 = true ∧
    ¬ (ResumeRetriever.init.index_resumes failModel [exResume]).1 = ResumeRetriever.init := by
  with_unfolding_all decide

/-- C4 (amended): if the Embedding Provider raises while a document of the
batch is indexed, the error is surfaced and the Vector Index is unchanged,
but the Document Store and Keyword Index are not rolled back: they retain the
failing document's record and postings (and any earlier documents of the
batch stay fully committed). -/
theorem C4_failure_not_rolled_back (m : EmbeddingModel) (rt : ResumeRetriever)
    (r : ResumeRecord) (hf : m.fails [create_resume_content r] = true) :
    let content := create_resume_content r
    let doc_id := if r.id = "" then "resume_" ++ toString rt.search_engine.documents.length
      else r.id
    let res := rt.index_resumes m [r]
    res.2 = true ∧
    res.1.search_engine.vector_db = rt.search_engine.vector_db.addEncodeCall ∧
    res.1.search_engine.documents
      = alistInsert rt.search_engine.documents doc_id ⟨doc_id, content, Metadata.resume r⟩ ∧
    res.1.search_engine.keyword_index
      = build_keyword_index rt.search_engine.keyword_index doc_id content ∧
    res.1.job_descriptions = rt.job_descriptions := by
  intro content doc_id res
  have hstep : (rt.index_resume m r).2 = true := by
    show (VectorDatabase.add_documents m rt.search_engine.vector_db
      [⟨doc_id, content, Metadata.resume r⟩]).2 = true
    rw [VectorDatabase.add_documents]
    simp [hf]
  have hres : res = ((rt.index_resume m r).1, true) := by
    show (if (rt.index_resume m r).2 = true then ((rt.index_resume m r).1, true)
      else ResumeRetriever.index_resumes m (rt.index_resume m r).1 []) = _
    rw [if_pos hstep]
  rw [hres]
  refine ⟨rfl, ?_, ?_, rfl, rfl⟩
  · show (VectorDatabase.add_documents m rt.search_engine.vector_db
      [⟨doc_id, content, Metadata.resume r⟩]).1 = _
    rw [VectorDatabase.add_documents]
    simp only [List.map_cons, List.map_nil]
    rw [if_pos ?_]
    · rfl
    · exact hf
  · rfl

theorem C4_failure_not_rolled_back_witness :
    failModel.fails [create_resume_content exResume] = true ∧
    (let content := create_resume_content exResume
     let doc_id := if exResume.id = ""
       then "resume_" ++ toString ResumeRetriever.init.search_engine.documents.length
       else exResume.id
     let res := ResumeRetriever.init.index_resumes failModel [exResume]
     res.2 = true ∧
     res.1.search_engine.vector_db = ResumeRetriever.init.search_engine.vector_db.addEncodeCall ∧
     res.1.search_engine.documents
       = alistInsert ResumeRetriever.init.search_engine.documents doc_id
           ⟨doc_id, content, Metadata.resume exResume⟩ ∧
     res.1.search_engine.keyword_index
       = build_keyword_index ResumeRetriever.init.search_engine.keyword_index doc_id content ∧
     res.1.job_descriptions = ResumeRetriever.init.job_descriptions) :=
  ⟨by with_unfolding_all decide,
    C4_failure_not_rolled_back failModel ResumeRetriever.init exResume
      (by with_unfolding_all decide)⟩

/-- C9 counterexample: indexing a batch of two resumes invokes the Embedding
Provider's encode once per document — two calls, not one batched call. -/
theorem C9_counterexample :
    ((ResumeRetriever.init.index_resumes constModel [exResume, exResume2]).1).search_engine.vector_db.encodeCalls = 2 ∧
    ¬ ((ResumeRetriever.init.index_resumes constModel [exResume, exResume2]).1).search_engine.vector_db.encodeCalls = 1 := by
  with_unfolding_all decide

/-- C9 (amended): for a batch of `n` resume records, `index_resumes` makes
exactly `n` calls to the Embedding Provider's encode (each on a one-element
batch), not one batched call. -/
theorem C9_one_encode_call_per_resume (f : String → List ℚ) :
    ∀ (rt : ResumeRetriever) (resumes : List ResumeRecord),
      ((rt.index_resumes (EmbeddingModel.total f) resumes).1).search_engine.vector_db.encodeCalls
        = rt.search_engine.vector_db.encodeCalls + resumes.length
  | rt, [] => rfl
  | rt, r :: rest => by
    show ((ResumeRetriever.index_resumes (EmbeddingModel.total f)
        ((rt.index_resume (EmbeddingModel.total f) r)).1 rest).1).search_engine.vector_db.encodeCalls
      = rt.search_engine.vector_db.encodeCalls + (r :: rest).length
    rw [C9_one_encode_call_per_resume f ((rt.index_resume (EmbeddingModel.total f) r)).1 rest]
    have hone : ((rt.index_resume (EmbeddingModel.total f) r)).1.search_engine.vector_db.encodeCalls
        = rt.search_engine.vector_db.encodeCalls + 1 := rfl
    rw [hone, List.length_cons]
    omega

/-- C8: the code defines no `reset()` on the Retriever (nor any clearing
operation on the engine's Document Store or Keyword Index); the only
clearing operation in the source, `VectorDatabase.clear`, applied to a
populated retriever's vector database, does not return the retriever to the
Empty state: the Document Store and Keyword Index still hold the resume, and
`retrieve_candidates` then raises (an `IndexError` from the negative FAISS
padding label over the now-empty vector document list) instead of returning
an empty list. -/
theorem C8_clear_does_not_reset :
    clearedRetriever.retrieve_candidates constModel exJob 5 = none ∧
    clearedRetriever.search_engine.documents.map Prod.fst = ["r1"] ∧
    clearedRetriever.search_engine.keyword_index.map Prod.fst = ["name", "python"] ∧
    clearedRetriever.search_engine.vector_db.index = [] ∧
    clearedRetriever.search_engine.vector_db.documents = [] := by
  with_unfolding_all decide

theorem searchRows_empty_docs_pad (n : Nat) (hn : 0 < n) :
    searchRows [] (List.replicate n ((-1 : Int), FLOAT_LOWEST)) = none := by
  cases n with
  | zero => omega
  | succ i =>
    rw [List.replicate_succ, searchRows]
    rfl

theorem pySorted_nil {α : Type} (le : α → α → Bool) : pySorted le [] = [] := rfl

theorem search_empty_db_raises (m : EmbeddingModel) (db : VectorDatabase)
    (hidx : db.index = []) (hdocs : db.documents = []) (q : String) (k : Nat)
    (hk : 0 < k) : VectorDatabase.search m db q k = none := by
  rw [VectorDatabase.search, hidx, hdocs]
  simp only [List.map_nil, List.length_nil, List.range_zero, List.zip_nil_left,
    pySorted_nil, List.take_nil, List.nil_append, Nat.sub_zero]
  exact searchRows_empty_docs_pad k hk

theorem hybrid_search_none (m : EmbeddingModel) (e : HybridSearchEngine) (q : String)
    (k : Nat) (kw vw : ℚ) (hs : VectorDatabase.search m e.vector_db q (k * 2) = none) :
    e.hybrid_search m q k kw vw = none := by
  rw [HybridSearchEngine.hybrid_search, hs]

/-- C2: on an empty corpus (freshly constructed retriever, nothing indexed),
`retrieve_candidates` does not return an empty list — it raises.  FAISS pads
its result with label `-1`; the guard `idx < len(self.documents)` passes
because `-1 < 0`, and `self.documents[-1]` on the empty list raises
`IndexError`, which escapes to the caller (the `none` outcome). -/
theorem C2_empty_corpus_raises (m : EmbeddingModel) (jd : JobRecord) (k : Nat)
    (hk : 0 < k) : ResumeRetriever.init.retrieve_candidates m jd k = none := by
  rw [ResumeRetriever.retrieve_candidates]
  rw [hybrid_search_none m _ _ k _ _ ?_]
  · rfl
  · exact search_empty_db_raises m _ rfl rfl _ (k * 2) (by omega)

theorem C2_empty_corpus_raises_witness :
    0 < 5 ∧ ResumeRetriever.init.retrieve_candidates constModel exJob 5 = none :=
  ⟨by decide, C2_empty_corpus_raises constModel exJob 5 (by decide)⟩

set_option maxRecDepth 2000 in
/-- C6 counterexample: with the default (non-negative, sum-1) weights
0.3/0.7, a two-document corpus and `k = 2`, the FAISS padding rows clobber
the last document's vector score with the `FLOAT_LOWEST` sentinel, so its
fused score is far below 0 — fused scores are not confined to `[0, 1]`. -/
theorem C6_counterexample :
    ((0 : ℚ) ≤ 3/10 ∧ (0 : ℚ) ≤ 7/10 ∧ (3 : ℚ)/10 + 7/10 = 1) ∧
    (negEngine.hybrid_search constModel "ssss" 2 (3/10) (7/10)).map
      (fun res => (res.map Prod.snd).any (fun s => s < 0)) = some true := by
  with_unfolding_all decide

theorem dict_norm_bounds (dict : List (String × ℚ)) (idv : String)
    (hnn : ∀ p ∈ dict, 0 ≤ p.2) :
    0 ≤ ((alistLookup dict idv).getD 0) /
        (if maxOrOne (dict.map Prod.snd) = 0 then 1 else maxOrOne (dict.map Prod.snd)) ∧
    ((alistLookup dict idv).getD 0) /
        (if maxOrOne (dict.map Prod.snd) = 0 then 1 else maxOrOne (dict.map Prod.snd)) ≤ 1 := by
  cases hl : alistLookup dict idv with
  | none => simp [hl]
  | some v =>
    have hmem : (idv, v) ∈ dict := alistLookup_mem hl
    have hv0 : 0 ≤ v := hnn _ hmem
    have hvmax : v ≤ maxOrOne (dict.map Prod.snd) :=
      mem_le_maxOrOne _ v (List.mem_map_of_mem Prod.snd hmem)
    by_cases hz : maxOrOne (dict.map Prod.snd) = 0
    · have hv : v = 0 := le_antisymm (hz ▸ hvmax) hv0
      simp [hl, hz, hv]
    · have hp : 0 < maxOrOne (dict.map Prod.snd) :=
        lt_of_le_of_ne (le_trans hv0 hvmax) (Ne.symm hz)
      rw [if_neg hz]
      simp only [hl, Option.getD_some]
      exact ⟨div_nonneg hv0 (le_of_lt hp), (div_le_one hp).mpr hvmax⟩

theorem combined_weight_bound (kw vw a b : ℚ) (hkw : 0 ≤ kw) (hvw : 0 ≤ vw)
    (hsum : kw + vw = 1) (ha0 : 0 ≤ a) (ha1 : a ≤ 1) (hb0 : 0 ≤ b) (hb1 : b ≤ 1) :
    0 ≤ kw * a + vw * b ∧ kw * a + vw * b ≤ 1 := by
  constructor
  · exact add_nonneg (mul_nonneg hkw ha0) (mul_nonneg hvw hb0)
  · calc kw * a + vw * b ≤ kw * 1 + vw * 1 :=
        add_le_add (mul_le_mul_of_nonneg_left ha1 hkw) (mul_le_mul_of_nonneg_left hb1 hvw)
    _ = 1 := by rw [mul_one, mul_one, hsum]

/-- C6 (amended): provided every vector similarity the sub-search reports is
non-negative (which the FAISS padding sentinel and negative cosines violate),
any non-negative weight pair summing to 1 yields fused scores in `[0, 1]`;
keyword scores are non-negative term counts, so no hypothesis is needed on
that side. -/
theorem C6_amended_combined_in_unit_interval (m : EmbeddingModel)
    (e : HybridSearchEngine) (q : String) (k : Nat) (kw vw : ℚ)
    (vr res : List (Document × ℚ))
    (hkw : 0 ≤ kw) (hvw : 0 ≤ vw) (hsum : kw + vw = 1)
    (hv : VectorDatabase.search m e.vector_db q (k * 2) = some vr)
    (hpos : ∀ p ∈ vr, 0 ≤ p.2)
    (hres : e.hybrid_search m q k kw vw = some res) :
    ∀ p ∈ res, 0 ≤ p.2 ∧ p.2 ≤ 1 := by
  simp only [HybridSearchEngine.hybrid_search, hv, Option.some.injEq] at hres
  subst hres
  intro p hp
  obtain ⟨a, ha, hfa⟩ := List.mem_filterMap.mp hp
  obtain ⟨d, _, hpd⟩ := Option.map_eq_some'.mp hfa
  have hp2 : p.2 = a.2 := by rw [← hpd]
  have hmem : a ∈ pySorted (fun x y => y.2 ≤ x.2) _ := List.mem_of_mem_take ha
  rw [mem_pySorted] at hmem
  obtain ⟨idv, _, rfl⟩ := List.mem_map.mp hmem
  rw [hp2]
  have hknn : ∀ r ∈ alistOfPairs ((e.keyword_search q (k * 2)).map
      (fun r => (r.1, (r.2 : ℚ)))), 0 ≤ r.2 := by
    intro r hr
    rcases List.mem_map.mp (mem_alistOfPairs _ _ hr) with ⟨s, _, rfl⟩
    exact Nat.cast_nonneg s.2
  have hvnn : ∀ r ∈ alistOfPairs (vr.map (fun r => (r.1.id, r.2))), 0 ≤ r.2 := by
    intro r hr
    rcases List.mem_map.mp (mem_alistOfPairs _ _ hr) with ⟨s, hs, rfl⟩
    exact hpos s hs
  obtain ⟨hk0, hk1⟩ := dict_norm_bounds _ idv hknn
  obtain ⟨hv0, hv1⟩ := dict_norm_bounds _ idv hvnn
  exact combined_weight_bound kw vw _ _ hkw hvw hsum hk0 hk1 hv0 hv1

theorem C6_amended_witness :
    (VectorDatabase.search constModel tieEngine.vector_db "alpha beta" (1 * 2)
      = some [(⟨"d1", "beta", Metadata.empty⟩, 1), (⟨"d2", "alpha", Metadata.empty⟩, 1)]) ∧
    (tieEngine.hybrid_search constModel "alpha beta" 1 (3/10) (7/10)
      = some [(⟨"d2", "alpha", Metadata.empty⟩, 1)]) ∧
    (∀ p ∈ [((⟨"d2", "alpha", Metadata.empty⟩ : Document), (1 : ℚ))], 0 ≤ p.2 ∧ p.2 ≤ 1) := by
  refine ⟨?hv, ?hr, ?_⟩
  case hv => with_unfolding_all decide
  case hr => with_unfolding_all decide
  exact C6_amended_combined_in_unit_interval constModel tieEngine "alpha beta" 1
    (3/10) (7/10) [(⟨"d1", "beta", Metadata.empty⟩, 1), (⟨"d2", "alpha", Metadata.empty⟩, 1)]
    [(⟨"d2", "alpha", Metadata.empty⟩, 1)]
    (by norm_num) (by norm_num) (by norm_num)
    (by with_unfolding_all decide) (by with_unfolding_all decide)
    (by with_unfolding_all decide)

theorem alistLookup_none_of_not_mem {α : Type} {l : List (String × α)} {k : String}
    (h : k ∉ l.map Prod.fst) : alistLookup l k = none := by
  cases hl : alistLookup l k with
  | none => rfl
  | some v => exact absurd ((alistLookup_isSome_iff l k).mp (by simp [hl])) h

theorem alistLookup_of_mem_nodup {α : Type} :
    ∀ {l : List (String × α)} {k : String} {v : α},
      (l.map Prod.fst).Nodup → (k, v) ∈ l → alistLookup l k = some v
  | [], k, _, _, h => absurd h (List.not_mem_nil _)
  | (k', w) :: t, k, v, hnd, h => by
    simp only [List.map_cons, List.nodup_cons] at hnd
    rcases List.mem_cons.mp h with heq | h
    · cases heq
      rw [alistLookup, if_pos rfl]
    · have hk : k' ≠ k := by
        intro hh
        subst hh
        exact hnd.1 (List.mem_map_of_mem Prod.fst h)
      rw [alistLookup, if_neg hk]
      exact alistLookup_of_mem_nodup hnd.2 h

theorem alistAdd_keys_nodup {l : List (String × Nat)} {k : String} {c : Nat}
    (h : (l.map Prod.fst).Nodup) : ((alistAdd l k c).map Prod.fst).Nodup := by
  rw [alistAdd_map_fst]
  by_cases hm : k ∈ l.map Prod.fst
  · rw [if_pos hm]; exact h
  · rw [if_neg hm]
    refine List.Nodup.append h (List.nodup_singleton k) ?_
    intro a ha hb
    simp only [List.mem_singleton] at hb
    subst hb
    exact hm ha

theorem posting_fold_keys_nodup :
    ∀ (posting sc : List (String × Nat)), (sc.map Prod.fst).Nodup →
      ((posting.foldl (fun sc2 p => alistAdd sc2 p.1 p.2) sc).map Prod.fst).Nodup
  | [], _, h => h
  | _ :: rest, _, h => posting_fold_keys_nodup rest _ (alistAdd_keys_nodup h)

theorem keyword_fold_keys_nodup (kidx : List (String × List (String × Nat))) :
    ∀ (qks : List String) (sc : List (String × Nat)), (sc.map Prod.fst).Nodup →
      ((qks.foldl (fun sc2 t => match alistLookup kidx t with
        | none => sc2
        | some posting => posting.foldl (fun sc3 p => alistAdd sc3 p.1 p.2) sc2)
        sc).map Prod.fst).Nodup
  | [], _, h => h
  | t :: rest, sc, h => by
    rw [List.foldl_cons]
    refine keyword_fold_keys_nodup kidx rest _ ?_
    have hstep : (match alistLookup kidx t with
        | none => sc
        | some posting => posting.foldl (fun sc3 p => alistAdd sc3 p.1 p.2) sc)
        = ((alistLookup kidx t).getD []).foldl (fun sc3 p => alistAdd sc3 p.1 p.2) sc := by
      cases alistLookup kidx t with
      | none => rfl
      | some posting => rfl
    rw [hstep]
    exact posting_fold_keys_nodup _ sc h

theorem posting_fold_value :
    ∀ (posting : List (String × Nat)), (posting.map Prod.fst).Nodup →
      ∀ (sc : List (String × Nat)) (d : String),
      (alistLookup (posting.foldl (fun sc2 p => alistAdd sc2 p.1 p.2) sc) d).getD 0
        = (alistLookup sc d).getD 0 + (alistLookup posting d).getD 0
  | [], _, sc, d => by simp [alistLookup]
  | (k, c) :: rest, hnd, sc, d => by
    simp only [List.map_cons, List.nodup_cons] at hnd
    rw [List.foldl_cons]
    rw [posting_fold_value rest hnd.2 (alistAdd sc k c) d]
    by_cases he : k = d
    · subst he
      rw [alistLookup, if_pos rfl]
      have hrest : alistLookup rest k = none := alistLookup_none_of_not_mem hnd.1
      rw [alistLookup_add_self, hrest]
      simp
    · rw [alistLookup, if_neg he]
      rw [alistLookup_add_ne (fun hh => he hh.symm)]

theorem keyword_fold_value (kidx : List (String × List (String × Nat)))
    (hpost : ∀ tp ∈ kidx, (tp.2.map Prod.fst).Nodup) :
    ∀ (qks : List String) (sc : List (String × Nat)) (d : String),
      (alistLookup (qks.foldl (fun sc2 t => match alistLookup kidx t with
          | none => sc2
          | some posting => posting.foldl (fun sc3 p => alistAdd sc3 p.1 p.2) sc2) sc) d).getD 0
        = (alistLookup sc d).getD 0
          + (qks.map (fun t => (alistLookup ((alistLookup kidx t).getD []) d).getD 0)).sum
  | [], sc, d => by simp
  | t :: rest, sc, d => by
    rw [List.foldl_cons, List.map_cons, List.sum_cons]
    rw [keyword_fold_value kidx hpost rest _ d]
    have hstep : (match alistLookup kidx t with
        | none => sc
        | some posting => posting.foldl (fun sc3 p => alistAdd sc3 p.1 p.2) sc)
        = ((alistLookup kidx t).getD []).foldl (fun sc3 p => alistAdd sc3 p.1 p.2) sc := by
      cases alistLookup kidx t with
      | none => rfl
      | some posting => rfl
    rw [hstep]
    rw [posting_fold_value ((alistLookup kidx t).getD []) ?_ sc d]
    · omega
    · cases hl : alistLookup kidx t with
      | none => simp
      | some posting => simpa using hpost _ (alistLookup_mem hl)

theorem posting_fold_map_fst :
    ∀ (posting : List (String × Nat)) (sc : List (String × Nat)),
      ((posting.foldl (fun sc2 p => alistAdd sc2 p.1 p.2) sc).map Prod.fst)
        = pySetAux (sc.map Prod.fst) (posting.map Prod.fst)
  | [], _ => rfl
  | p :: rest, sc => by
    rw [List.foldl_cons, List.map_cons, pySetAux]
    rw [posting_fold_map_fst rest (alistAdd sc p.1 p.2)]
    rw [alistAdd_map_fst]
    by_cases h : p.1 ∈ sc.map Prod.fst
    · rw [if_pos h, if_pos h]
    · rw [if_neg h, if_neg h]

theorem keyword_fold_map_fst (kidx : List (String × List (String × Nat))) :
    ∀ (qks : List String) (sc : List (String × Nat)),
      ((qks.foldl (fun sc2 t => match alistLookup kidx t with
          | none => sc2
          | some posting => posting.foldl (fun sc3 p => alistAdd sc3 p.1 p.2) sc2)
        sc).map Prod.fst)
        = pySetAux (sc.map Prod.fst)
            (qks.flatMap (fun t => ((alistLookup kidx t).getD []).map Prod.fst))
  | [], _ => rfl
  | t :: rest, sc => by
    rw [List.foldl_cons, List.flatMap_cons, pySetAux_append]
    rw [keyword_fold_map_fst kidx rest _]
    have hstep : (match alistLookup kidx t with
        | none => sc
        | some posting => posting.foldl (fun sc3 p => alistAdd sc3 p.1 p.2) sc)
        = ((alistLookup kidx t).getD []).foldl (fun sc3 p => alistAdd sc3 p.1 p.2) sc := by
      cases alistLookup kidx t with
      | none => rfl
      | some posting => rfl
    rw [hstep, posting_fold_map_fst]

theorem alist_self_map (S : String → Nat) :
    ∀ (l : List (String × Nat)), (∀ p ∈ l, p.2 = S p.1) →
      (l.map Prod.fst).map (fun d => (d, S d)) = l
  | [], _ => rfl
  | p :: rest, h => by
    rw [List.map_cons, List.map_cons,
      alist_self_map S rest (fun q hq => h q (List.mem_cons_of_mem _ hq))]
    rw [← h p (List.mem_cons_self _ _)]

/-- C7 counterexample: with `d1 = "beta"` indexed before `d2 = "alpha"` and
the query `"alpha beta"`, both documents tie at score 1, yet the code returns
`d2` before `d1`: ties are broken by the order in which documents first
received a score contribution (query-term order, then posting order), not by
document insertion order as the claim states. -/
theorem C7_counterexample :
    tieEngine.documents.map Prod.fst = ["d1", "d2"] ∧
    tieEngine.keyword_search "alpha beta" 10 = [("d2", 1), ("d1", 1)] ∧
    specKeywordSearch tieEngine.keyword_index (tieEngine.documents.map Prod.fst)
      "alpha beta" 10 = [("d1", 1), ("d2", 1)] ∧
    ¬ tieEngine.keyword_search "alpha beta" 10
        = specKeywordSearch tieEngine.keyword_index (tieEngine.documents.map Prod.fst)
            "alpha beta" 10 := by
  decide

/-- C7 (amended): keyword search computes exactly the amended algorithm
`specKeywordSearchAmended` — EVERY matched document (each id appearing in
the posting of some extracted query term) is scored as the sum over the
query's extracted terms of that term's posting count for it (plain term
frequency), the full list is stably sorted by score descending with ties in
first-contribution order (not document insertion order, the one divergence
from the claim) and truncated to `k`; hence a keyword-less query yields `[]`
(not an error), the output is the top-`k` of all matched documents, sorted,
with at most `k` entries, and every returned document carries its
term-frequency score. -/
theorem C7_keyword_search_characterized (e : HybridSearchEngine) (query : String)
    (k : Nat) (hpost : ∀ tp ∈ e.keyword_index, (tp.2.map Prod.fst).Nodup) :
    e.keyword_search query k = specKeywordSearchAmended e.keyword_index query k ∧
    ((extract_keywords query).isEmpty = true → e.keyword_search query k = []) ∧
    (e.keyword_search query k).length ≤ k ∧
    (e.keyword_search query k).Pairwise (fun a b => b.2 ≤ a.2) ∧
    ∀ p ∈ e.keyword_search query k,
      p.2 = ((extract_keywords query).map (fun t =>
        (alistLookup ((alistLookup e.keyword_index t).getD []) p.1).getD 0)).sum := by
  have htrans : ∀ a b c : String × Nat, (decide (b.2 ≤ a.2)) = true →
      (decide (c.2 ≤ b.2)) = true → (decide (c.2 ≤ a.2)) = true := by
    intro a b c hab hbc
    rw [decide_eq_true_eq] at hab hbc ⊢
    exact le_trans hbc hab
  have htot : ∀ a b : String × Nat, (decide (b.2 ≤ a.2)) = true ∨ (decide (a.2 ≤ b.2)) = true := by
    intro a b
    rcases le_total b.2 a.2 with h | h
    · exact Or.inl (decide_eq_true h)
    · exact Or.inr (decide_eq_true h)
  refine ⟨?_, ?_, ?_, ?_, ?_⟩
  · simp only [HybridSearchEngine.keyword_search, specKeywordSearchAmended]
    by_cases h : (extract_keywords query).isEmpty
    · rw [if_pos h, if_pos h]
    · rw [if_neg h, if_neg h]
      have hnd := keyword_fold_keys_nodup e.keyword_index (extract_keywords query)
        [] List.nodup_nil
      have hvals : ∀ p ∈ (extract_keywords query).foldl (fun sc t =>
          match alistLookup e.keyword_index t with
          | none => sc
          | some posting => posting.foldl (fun sc2 p => alistAdd sc2 p.1 p.2) sc)
          ([] : List (String × Nat)),
          p.2 = ((extract_keywords query).map (fun t =>
            (alistLookup ((alistLookup e.keyword_index t).getD []) p.1).getD 0)).sum := by
        intro p hp
        have hlk := alistLookup_of_mem_nodup hnd (by
          rw [show p = (p.1, p.2) from rfl] at hp
          exact hp)
        have hval := keyword_fold_value e.keyword_index hpost (extract_keywords query) [] p.1
        rw [hlk] at hval
        simpa [alistLookup] using hval
      have hfold : (extract_keywords query).foldl (fun sc t =>
          match alistLookup e.keyword_index t with
          | none => sc
          | some posting => posting.foldl (fun sc2 p => alistAdd sc2 p.1 p.2) sc)
          ([] : List (String × Nat))
          = (keywordCandidates e.keyword_index (extract_keywords query)).map
              (fun d => (d, ((extract_keywords query).map (fun t =>
                (alistLookup ((alistLookup e.keyword_index t).getD []) d).getD 0)).sum)) := by
        rw [← alist_self_map (fun d => ((extract_keywords query).map (fun t =>
            (alistLookup ((alistLookup e.keyword_index t).getD []) d).getD 0)).sum) _ hvals,
          keyword_fold_map_fst e.keyword_index]
        rfl
      rw [hfold]
  · intro h
    simp only [HybridSearchEngine.keyword_search, h, if_true]
  · simp only [HybridSearchEngine.keyword_search]
    by_cases h : (extract_keywords query).isEmpty
    · simp [h]
    · simp only [h, if_false]
      exact List.length_take_le _ _
  · simp only [HybridSearchEngine.keyword_search]
    by_cases h : (extract_keywords query).isEmpty
    · simp [h]
    · simp only [h, if_false]
      refine List.Pairwise.sublist (List.take_sublist _ _) ?_
      refine List.Pairwise.imp (fun hd => of_decide_eq_true hd) ?_
      exact pySorted_pairwise htrans htot _
  · intro p hp
    simp only [HybridSearchEngine.keyword_search] at hp
    by_cases h : (extract_keywords query).isEmpty
    · simp [h] at hp
    · simp only [h, if_false] at hp
      have hmem : p ∈ pySorted (fun a b : String × Nat => decide (b.2 ≤ a.2)) _ :=
        List.mem_of_mem_take hp
      rw [mem_pySorted] at hmem
      have hnd := keyword_fold_keys_nodup e.keyword_index (extract_keywords query)
        [] List.nodup_nil
      have hlk := alistLookup_of_mem_nodup hnd (by
        rw [show p = (p.1, p.2) from rfl] at hmem
        exact hmem)
      have hval := keyword_fold_value e.keyword_index hpost (extract_keywords query) [] p.1
      rw [hlk] at hval
      simpa [alistLookup] using hval

theorem C7_keyword_search_characterized_witness :
    (∀ tp ∈ tieEngine.keyword_index, (tp.2.map Prod.fst).Nodup) ∧
    (tieEngine.keyword_search "alpha beta" 10
        = specKeywordSearchAmended tieEngine.keyword_index "alpha beta" 10 ∧
      ((extract_keywords "alpha beta").isEmpty = true →
        tieEngine.keyword_search "alpha beta" 10 = []) ∧
      (tieEngine.keyword_search "alpha beta" 10).length ≤ 10 ∧
      (tieEngine.keyword_search "alpha beta" 10).Pairwise (fun a b => b.2 ≤ a.2) ∧
      ∀ p ∈ tieEngine.keyword_search "alpha beta" 10,
        p.2 = ((extract_keywords "alpha beta").map (fun t =>
          (alistLookup ((alistLookup tieEngine.keyword_index t).getD []) p.1).getD 0)).sum) :=
  ⟨by decide, C7_keyword_search_characterized tieEngine "alpha beta" 10 (by decide)⟩

theorem foldl_alistInsert_map_fst {α : Type} :
    ∀ (ps : List (String × α)) (d : List (String × α)),
      (ps.foldl (fun d p => alistInsert d p.1 p.2) d).map Prod.fst
        = pySetAux (d.map Prod.fst) (ps.map Prod.fst)
  | [], _ => rfl
  | p :: rest, d => by
    rw [List.foldl_cons, List.map_cons, pySetAux]
    rw [foldl_alistInsert_map_fst rest (alistInsert d p.1 p.2)]
    rw [alistInsert_map_fst]
    by_cases h : p.1 ∈ d.map Prod.fst
    · rw [if_pos h, if_pos h]
    · rw [if_neg h, if_neg h]

theorem alistOfPairs_map_fst {α : Type} (ps : List (String × α)) :
    (alistOfPairs ps).map Prod.fst = pySet (ps.map Prod.fst) :=
  foldl_alistInsert_map_fst ps []

set_option maxRecDepth 2000 in
/-- C5 counterexample: on the two-document corpus `d1 = "beta"`, `d2 =
"alpha"` (inserted in that order) and the query `"alpha beta"`, both
sub-searches return both documents with equal scores, so the fused scores
tie; the specified algorithm (ties broken by Document Store insertion order)
returns `d1` first, but the code returns `d2` first. -/
theorem C5_counterexample :
    tieEngine.documents.map Prod.fst = ["d1", "d2"] ∧
    (tieEngine.keyword_search "alpha beta" (1 * 2)).map (fun p => (p.1, (p.2 : ℚ)))
      = [("d2", 1), ("d1", 1)] ∧
    (VectorDatabase.search constModel tieEngine.vector_db "alpha beta" (1 * 2)).map
      (List.map (fun p => (p.1.id, p.2))) = some [("d1", 1), ("d2", 1)] ∧
    (tieEngine.hybrid_search constModel "alpha beta" 1 (3/10) (7/10)).map
      (List.map (fun p => p.1.id)) = some ["d2"] ∧
    (specFuse [("d2", 1), ("d1", 1)] [("d1", 1), ("d2", 1)] 1 (3/10) (7/10)
        ["d1", "d2"]).map Prod.fst = ["d1"] := by
  with_unfolding_all decide

/-- C5 (amended): whenever the vector sub-search returns without raising,
`hybrid_search` computes exactly the amended fusion `specFuseAmended` of the
two sub-search result lists — score dictionaries with later duplicates
overriding, per-modality maxima guarded to 1 when the dictionary is empty or
its maximum is zero, candidate ids enumerated by first occurrence in keyword
then vector results, stable sort by combined score descending, truncation to
`k` — with the stored documents attached. -/
theorem C5_fusion_refines_amended (m : EmbeddingModel) (e : HybridSearchEngine)
    (q : String) (k : Nat) (kw vw : ℚ) (vr : List (Document × ℚ))
    (hv : VectorDatabase.search m e.vector_db q (k * 2) = some vr) :
    e.hybrid_search m q k kw vw
      = some ((specFuseAmended
            ((e.keyword_search q (k * 2)).map (fun p => (p.1, (p.2 : ℚ))))
            (vr.map (fun p => (p.1.id, p.2))) k kw vw).filterMap (fun p =>
          (alistLookup e.documents p.1).map (fun d => (d, p.2)))) := by
  simp only [HybridSearchEngine.hybrid_search, hv, specFuseAmended]
  rw [alistOfPairs_map_fst, alistOfPairs_map_fst, pySet_pySet_append]
  rw [maxOrOne_eq_max_getD, maxOrOne_eq_max_getD]

theorem C5_fusion_refines_amended_witness :
    (VectorDatabase.search constModel tieEngine.vector_db "alpha beta" (1 * 2)
      = some [((⟨"d1", "beta", Metadata.empty⟩ : Document), (1 : ℚ)),
              ((⟨"d2", "alpha", Metadata.empty⟩ : Document), (1 : ℚ))]) ∧
    tieEngine.hybrid_search constModel "alpha beta" 1 (3/10) (7/10)
      = some ((specFuseAmended
            ((tieEngine.keyword_search "alpha beta" (1 * 2)).map (fun p => (p.1, (p.2 : ℚ))))
            (([((⟨"d1", "beta", Metadata.empty⟩ : Document), (1 : ℚ)),
               ((⟨"d2", "alpha", Metadata.empty⟩ : Document), (1 : ℚ))]).map
              (fun p => (p.1.id, p.2)))
            1 (3/10) (7/10)).filterMap (fun p =>
          (alistLookup tieEngine.documents p.1).map (fun d => (d, p.2)))) :=
  ⟨by with_unfolding_all decide,
    C5_fusion_refines_amended constModel tieEngine "alpha beta" 1 (3/10) (7/10)
      [((⟨"d1", "beta", Metadata.empty⟩ : Document), (1 : ℚ)),
       ((⟨"d2", "alpha", Metadata.empty⟩ : Document), (1 : ℚ))]
      (by with_unfolding_all decide)⟩

theorem index_resume_preserves_sources (m : EmbeddingModel) (rt : ResumeRetriever)
    (r0 : ResumeRecord) (S : List ResumeRecord)
    (hP : ∀ q ∈ rt.search_engine.documents, ∀ r, q.2.metadata = Metadata.resume r → r ∈ S)
    (hr0 : r0 ∈ S) :
    ∀ q ∈ ((rt.index_resume m r0).1).search_engine.documents, ∀ r,
      q.2.metadata = Metadata.resume r → r ∈ S := by
  intro q hq r hr
  rcases mem_alistInsert rt.search_engine.documents _ _ q hq with h | h
  · exact hP q h r hr
  · rw [h] at hr
    simp only at hr
    cases hr
    exact hr0

theorem index_job_preserves_sources (m : EmbeddingModel) (rt : ResumeRetriever)
    (jd : JobRecord) (S : List ResumeRecord)
    (hP : ∀ q ∈ rt.search_engine.documents, ∀ r, q.2.metadata = Metadata.resume r → r ∈ S) :
    ∀ q ∈ (((rt.index_job_description m jd).1).1).search_engine.documents, ∀ r,
      q.2.metadata = Metadata.resume r → r ∈ S := by
  intro q hq r hr
  rcases mem_alistInsert rt.search_engine.documents _ _ q hq with h | h
  · exact hP q h r hr
  · rw [h] at hr
    simp only at hr
    exact Metadata.noConfusion hr

theorem index_resumes_preserves_sources (m : EmbeddingModel) :
    ∀ (rs : List ResumeRecord) (rt : ResumeRetriever) (S : List ResumeRecord),
      (∀ q ∈ rt.search_engine.documents, ∀ r, q.2.metadata = Metadata.resume r → r ∈ S) →
      (∀ r ∈ rs, r ∈ S) →
      ∀ q ∈ ((ResumeRetriever.index_resumes m rt rs).1).search_engine.documents, ∀ r,
        q.2.metadata = Metadata.resume r → r ∈ S
  | [], rt, S, hP, _, q, hq, r, hr => hP q hq r hr
  | r0 :: rest, rt, S, hP, hrs, q, hq, r, hr => by
    have hstep := index_resume_preserves_sources m rt r0 S hP (hrs r0 (List.mem_cons_self _ _))
    by_cases hb : (rt.index_resume m r0).2 = true
    · rw [show ResumeRetriever.index_resumes m rt (r0 :: rest)
          = ((rt.index_resume m r0).1, true) from by
        simp only [ResumeRetriever.index_resumes]
        rw [if_pos hb]] at hq
      exact hstep q hq r hr
    · rw [show ResumeRetriever.index_resumes m rt (r0 :: rest)
          = ResumeRetriever.index_resumes m (rt.index_resume m r0).1 rest from by
        simp only [ResumeRetriever.index_resumes]
        rw [if_neg hb]] at hq
      exact index_resumes_preserves_sources m rest _ S hstep
        (fun r' h' => hrs r' (List.mem_cons_of_mem _ h')) q hq r hr

theorem runOps_resume_sources (m : EmbeddingModel) :
    ∀ (ops : List RetrieverOp) (rt : ResumeRetriever) (S : List ResumeRecord),
      (∀ q ∈ rt.search_engine.documents, ∀ r, q.2.metadata = Metadata.resume r → r ∈ S) →
      (∀ r ∈ resumesOf ops, r ∈ S) →
      ∀ q ∈ (ResumeRetriever.runOps m rt ops).search_engine.documents, ∀ r,
        q.2.metadata = Metadata.resume r → r ∈ S
  | [], _, _, hP, _, q, hq, r, hr => hP q hq r hr
  | op :: ops, rt, S, hP, hops, q, hq, r, hr => by
    refine runOps_resume_sources m ops (rt.applyOp m op) S ?_ ?_ q hq r hr
    · cases op with
      | indexResumes rs =>
        exact index_resumes_preserves_sources m rs rt S hP
          (fun r' h' => hops r' (by
            show r' ∈ rs ++ resumesOf ops
            exact List.mem_append_left _ h'))
      | indexJobDescription jd =>
        exact index_job_preserves_sources m rt jd S hP
    · intro r' h'
      cases op with
      | indexResumes rs =>
        exact hops r' (by
          show r' ∈ rs ++ resumesOf ops
          exact List.mem_append_right _ h')
      | indexJobDescription jd => exact hops r' h'

theorem hybrid_search_mem_documents (m : EmbeddingModel) (e : HybridSearchEngine)
    (q : String) (k : Nat) (kw vw : ℚ) (results : List (Document × ℚ))
    (h : e.hybrid_search m q k kw vw = some results) :
    ∀ p ∈ results, ∃ idv, (idv, p.1) ∈ e.documents := by
  cases hv : VectorDatabase.search m e.vector_db q (k * 2) with
  | none =>
    rw [hybrid_search_none m e q k kw vw hv] at h
    cases h
  | some vr =>
    simp only [HybridSearchEngine.hybrid_search, hv, Option.some.injEq] at h
    subst h
    intro p hp
    obtain ⟨a, _, hfa⟩ := List.mem_filterMap.mp hp
    obtain ⟨d, hd, hpd⟩ := Option.map_eq_some'.mp hfa
    refine ⟨a.1, ?_⟩
    rw [← hpd]
    exact alistLookup_mem hd

/-- C10: every record returned by `retrieve_candidates` originates from a
document indexed as a resume — for any sequence of indexing calls on a fresh
retriever, each returned candidate's payload is one of the records passed to
an `indexResumes` call; indexed job descriptions participate in the fused
ranking but are filtered out of the returned list. -/
theorem C10_candidates_originate_from_resumes (m : EmbeddingModel)
    (ops : List RetrieverOp) (jd : JobRecord) (k : Nat) (cands : List Candidate)
    (h : (ResumeRetriever.runOps m ResumeRetriever.init ops).retrieve_candidates m jd k
      = some cands) :
    ∀ c ∈ cands, c.resume_data ∈ resumesOf ops := by
  intro c hc
  rw [ResumeRetriever.retrieve_candidates] at h
  obtain ⟨results, hres, hmap⟩ := Option.map_eq_some'.mp h
  subst hmap
  obtain ⟨p, hp, hpc⟩ := List.mem_filterMap.mp hc
  obtain ⟨idv, hmem⟩ := hybrid_search_mem_documents m _ _ k (3/10) (7/10) results hres p hp
  have hsrc := runOps_resume_sources m ops ResumeRetriever.init (resumesOf ops)
    (by intro q hq; cases hq) (fun r hr => hr) (idv, p.1) hmem
  cases hmd : p.1.metadata with
  | resume r =>
    rw [hmd] at hpc
    simp only at hpc
    cases hpc
    exact hsrc r hmd
  | job_description j =>
    rw [hmd] at hpc
    simp at hpc
  | empty =>
    rw [hmd] at hpc
    simp at hpc

theorem C10_candidates_originate_from_resumes_witness :
    ((ResumeRetriever.runOps constModel ResumeRetriever.init
        [RetrieverOp.indexResumes [exResume]]).retrieve_candidates constModel exJob 5
      = some [⟨exResume, 1⟩]) ∧
    ∀ c ∈ [(⟨exResume, (1 : ℚ)⟩ : Candidate)],
      c.resume_data ∈ resumesOf [RetrieverOp.indexResumes [exResume]] :=
  ⟨by with_unfolding_all decide,
    C10_candidates_originate_from_resumes constModel [RetrieverOp.indexResumes [exResume]]
      exJob 5 [⟨exResume, 1⟩] (by with_unfolding_all decide)⟩

set_option maxRecDepth 2000 in
/-- C1 counterexample: a corpus holding one resume and one indexed job
description, with `topK = 1`: the job-description document wins the fused
ranking (the query is its own content), is filtered out afterwards, and
`retrieve_candidates` returns 0 records although `min(topK, resumeCount)
= min(1, 1) = 1`. -/
theorem C1_counterexample :
    (mixedRetriever.search_engine.documents.filter (fun p =>
      match p.2.metadata with
      | Metadata.resume _ => true
      | _ => false)).length = 1 ∧
    mixedRetriever.retrieve_candidates constModel exJob 1 = some [] ∧
    ([] : List Candidate).length ≠ min 1 1 := by
  with_unfolding_all decide

theorem retrieve_at_most_topK (m : EmbeddingModel) (rt : ResumeRetriever)
    (jd : JobRecord) (k : Nat) (res : List Candidate)
    (h : rt.retrieve_candidates m jd k = some res) : res.length ≤ k := by
  rw [ResumeRetriever.retrieve_candidates] at h
  obtain ⟨results, hres, hmap⟩ := Option.map_eq_some'.mp h
  subst hmap
  refine le_trans (List.length_filterMap_le _ _) ?_
  cases hv : VectorDatabase.search m rt.search_engine.vector_db
      (create_job_description_content jd) (k * 2) with
  | none =>
    rw [hybrid_search_none _ _ _ _ _ _ hv] at hres
    cases hres
  | some vr =>
    simp only [HybridSearchEngine.hybrid_search, hv, Option.some.injEq] at hres
    subst hres
    refine le_trans (List.length_filterMap_le _ _) ?_
    rw [List.length_take]
    exact min_le_left _ _

theorem filterMap_congr_map {α β : Type} (f : α → Option β) (g : α → β) :
    ∀ l : List α, (∀ a ∈ l, f a = some (g a)) → l.filterMap f = l.map g
  | [], _ => rfl
  | x :: xs, h => by
    rw [List.filterMap_cons, h x (List.mem_cons_self _ _), List.map_cons,
      filterMap_congr_map f g xs (fun a ha => h a (List.mem_cons_of_mem _ ha))]

theorem searchRows_eq_filterMap (docs : List Document) (hne : docs ≠ []) :
    ∀ rows : List (Int × ℚ),
      searchRows docs rows = some (rows.filterMap (fun p =>
        if p.1 < (docs.length : Int) then
          if p.1 < 0 then docs.getLast?.map (fun d => (d, p.2))
          else docs[p.1.toNat]?.map (fun d => (d, p.2))
        else none))
  | [] => rfl
  | p :: rest => by
    rw [searchRows, List.filterMap_cons]
    by_cases h1 : p.1 < (docs.length : Int)
    · rw [if_pos h1, if_pos h1]
      by_cases h2 : p.1 < 0
      · rw [if_pos h2, if_pos h2]
        obtain ⟨d, hg⟩ : ∃ d, docs.getLast? = some d := by
          cases hq : docs.getLast? with
          | none => exact absurd (List.getLast?_eq_none_iff.mp hq) hne
          | some d => exact ⟨d, rfl⟩
        rw [searchRows_eq_filterMap docs hne rest, hg]
        rfl
      · rw [if_neg h2, if_neg h2]
        have hlt : p.1.toNat < docs.length := by
          rw [Int.toNat_lt (le_of_not_lt h2)]
          exact h1
        rw [List.getElem?_eq_getElem hlt, searchRows_eq_filterMap docs hne rest]
        rfl
    · rw [if_neg h1, if_neg h1]
      exact searchRows_eq_filterMap docs hne rest

theorem foldl_posting_keys {allowed : List String} (doc_id : String)
    (hdoc : doc_id ∈ allowed) (keywords : List String) :
    ∀ (l : List String) (ix : List (String × List (String × Nat))),
      (∀ t posting, alistLookup ix t = some posting → ∀ pr ∈ posting, pr.1 ∈ allowed) →
      ∀ t posting, alistLookup (l.foldl (fun ix u => alistInsert ix u
          (alistInsert ((alistLookup ix u).getD []) doc_id (keywords.count u))) ix) t
        = some posting → ∀ pr ∈ posting, pr.1 ∈ allowed
  | [], _, hinv => hinv
  | u :: us, ix, hinv => by
    rw [List.foldl_cons]
    refine foldl_posting_keys doc_id hdoc keywords us _ ?_
    intro t posting hl pr hpr
    by_cases he : t = u
    · subst he
      rw [alistLookup_insert_self] at hl
      cases hl
      rcases mem_alistInsert _ _ _ _ hpr with h | h
      · cases hx : alistLookup ix t with
        | none =>
          rw [hx] at h
          exact absurd h (List.not_mem_nil pr)
        | some old =>
          rw [hx] at h
          exact hinv t old hx pr (by simpa using h)
      · rw [h]
        exact hdoc
    · rw [alistLookup_insert_ne he] at hl
      exact hinv t posting hl pr hpr

theorem build_keyword_index_posting_keys (kidx : List (String × List (String × Nat)))
    (doc_id content : String) (allowed : List String) (hdoc : doc_id ∈ allowed)
    (hinv : ∀ t posting, alistLookup kidx t = some posting → ∀ pr ∈ posting, pr.1 ∈ allowed) :
    ∀ t posting, alistLookup (build_keyword_index kidx doc_id content) t = some posting →
      ∀ pr ∈ posting, pr.1 ∈ allowed :=
  foldl_posting_keys doc_id hdoc (extract_keywords content)
    (pySet (extract_keywords content)) kidx hinv

theorem alistAdd_keys_sub (allowed : List String) (l : List (String × Nat))
    (k : String) (c : Nat) (hl : ∀ x ∈ l.map Prod.fst, x ∈ allowed) (hk : k ∈ allowed) :
    ∀ x ∈ (alistAdd l k c).map Prod.fst, x ∈ allowed := by
  intro x hx
  rw [alistAdd_map_fst] at hx
  by_cases hm : k ∈ l.map Prod.fst
  · rw [if_pos hm] at hx
    exact hl x hx
  · rw [if_neg hm] at hx
    rcases List.mem_append.mp hx with h | h
    · exact hl x h
    · simp only [List.mem_singleton] at h
      subst h
      exact hk

theorem posting_fold_keys_sub (allowed : List String) :
    ∀ (posting sc : List (String × Nat)),
      (∀ x ∈ sc.map Prod.fst, x ∈ allowed) →
      (∀ pr ∈ posting, pr.1 ∈ allowed) →
      ∀ x ∈ ((posting.foldl (fun sc2 p => alistAdd sc2 p.1 p.2) sc).map Prod.fst), x ∈ allowed
  | [], _, hsc, _ => hsc
  | pr :: rest, sc, hsc, hpost => by
    rw [List.foldl_cons]
    exact posting_fold_keys_sub allowed rest _
      (alistAdd_keys_sub allowed sc pr.1 pr.2 hsc (hpost pr (List.mem_cons_self _ _)))
      (fun pr' h' => hpost pr' (List.mem_cons_of_mem _ h'))

theorem keyword_fold_keys_sub (kidx : List (String × List (String × Nat)))
    (allowed : List String)
    (hpost : ∀ t posting, alistLookup kidx t = some posting → ∀ pr ∈ posting, pr.1 ∈ allowed) :
    ∀ (qks : List String) (sc : List (String × Nat)),
      (∀ x ∈ sc.map Prod.fst, x ∈ allowed) →
      ∀ x ∈ ((qks.foldl (fun sc2 t => match alistLookup kidx t with
        | none => sc2
        | some posting => posting.foldl (fun sc3 p => alistAdd sc3 p.1 p.2) sc2)
        sc).map Prod.fst), x ∈ allowed
  | [], _, hsc => hsc
  | t :: rest, sc, hsc => by
    rw [List.foldl_cons]
    refine keyword_fold_keys_sub kidx allowed hpost rest _ ?_
    have hstep : (match alistLookup kidx t with
        | none => sc
        | some posting => posting.foldl (fun sc3 p => alistAdd sc3 p.1 p.2) sc)
        = ((alistLookup kidx t).getD []).foldl (fun sc3 p => alistAdd sc3 p.1 p.2) sc := by
      cases alistLookup kidx t with
      | none => rfl
      | some posting => rfl
    rw [hstep]
    refine posting_fold_keys_sub allowed _ sc hsc ?_
    cases hl : alistLookup kidx t with
    | none =>
      intro pr h
      exact absurd h (List.not_mem_nil pr)
    | some posting =>
      intro pr h
      exact hpost t posting hl pr (by simpa using h)

theorem index_resumes_total_build (f : String → List ℚ) (allowed : List String) :
    ∀ (rs : List ResumeRecord) (rt : ResumeRetriever),
      (∀ r ∈ rs, r.id ≠ "") →
      (∀ r ∈ rs, r.id ∉ rt.search_engine.documents.map Prod.fst) →
      (rs.map ResumeRecord.id).Nodup →
      (∀ r ∈ rs, r.id ∈ allowed) →
      (∀ t posting, alistLookup rt.search_engine.keyword_index t = some posting →
        ∀ pr ∈ posting, pr.1 ∈ allowed) →
      ((ResumeRetriever.index_resumes (EmbeddingModel.total f) rt rs).1).search_engine.documents
          = rt.search_engine.documents ++ rs.map (fun r => (r.id, mkResumeDoc r)) ∧
      ((ResumeRetriever.index_resumes (EmbeddingModel.total f) rt
          rs).1).search_engine.vector_db.documents
          = rt.search_engine.vector_db.documents ++ rs.map mkResumeDoc ∧
      ((ResumeRetriever.index_resumes (EmbeddingModel.total f) rt
          rs).1).search_engine.vector_db.index
          = rt.search_engine.vector_db.index ++ rs.map (fun r => f (create_resume_content r)) ∧
      (∀ t posting, alistLookup ((ResumeRetriever.index_resumes (EmbeddingModel.total f) rt
          rs).1).search_engine.keyword_index t = some posting →
        ∀ pr ∈ posting, pr.1 ∈ allowed)
  | [], rt, _, _, _, _, hkw =>
    ⟨by simp [ResumeRetriever.index_resumes], by simp [ResumeRetriever.index_resumes],
      by simp [ResumeRetriever.index_resumes], hkw⟩
  | r :: rest, rt, hne, hfresh, hnd, hall, hkw => by
    have hdid : (if r.id = "" then "resume_" ++ toString rt.search_engine.documents.length
        else r.id) = r.id := if_neg (hne r (List.mem_cons_self _ _))
    have hred : (ResumeRetriever.index_resumes (EmbeddingModel.total f) rt (r :: rest))
        = ResumeRetriever.index_resumes (EmbeddingModel.total f)
            ((rt.index_resume (EmbeddingModel.total f) r)).1 rest := by
      simp only [ResumeRetriever.index_resumes]
      rw [if_neg ?_]
      exact fun h => Bool.false_ne_true h
    have hdocs1 : ((rt.index_resume (EmbeddingModel.total f) r)).1.search_engine.documents
        = rt.search_engine.documents ++ [(r.id, mkResumeDoc r)] := by
      have hshape : ((rt.index_resume (EmbeddingModel.total f) r)).1.search_engine.documents
          = alistInsert rt.search_engine.documents
              (if r.id = "" then "resume_" ++ toString rt.search_engine.documents.length
                else r.id)
              ⟨(if r.id = "" then "resume_" ++ toString rt.search_engine.documents.length
                else r.id), create_resume_content r, Metadata.resume r⟩ := rfl
      rw [hshape, hdid]
      exact alistInsert_of_not_mem _ (hfresh r (List.mem_cons_self _ _))
    have hvdocs1 : ((rt.index_resume
        (EmbeddingModel.total f) r)).1.search_engine.vector_db.documents
        = rt.search_engine.vector_db.documents ++ [mkResumeDoc r] := by
      have hshape : ((rt.index_resume (EmbeddingModel.total f) r)).1.search_engine.vector_db.documents
          = rt.search_engine.vector_db.documents ++
              [⟨(if r.id = "" then "resume_" ++ toString rt.search_engine.documents.length
                else r.id), create_resume_content r, Metadata.resume r⟩] := rfl
      rw [hshape, hdid]
      rfl
    have hvidx1 : ((rt.index_resume (EmbeddingModel.total f) r)).1.search_engine.vector_db.index
        = rt.search_engine.vector_db.index ++ [f (create_resume_content r)] := rfl
    have hkidx1 : ((rt.index_resume (EmbeddingModel.total f) r)).1.search_engine.keyword_index
        = build_keyword_index rt.search_engine.keyword_index r.id (create_resume_content r) := by
      have hshape : ((rt.index_resume (EmbeddingModel.total f) r)).1.search_engine.keyword_index
          = build_keyword_index rt.search_engine.keyword_index
              (if r.id = "" then "resume_" ++ toString rt.search_engine.documents.length
                else r.id) (create_resume_content r) := rfl
      rw [hshape, hdid]
    have hkw1 : ∀ t posting,
        alistLookup ((rt.index_resume (EmbeddingModel.total f) r)).1.search_engine.keyword_index t
          = some posting → ∀ pr ∈ posting, pr.1 ∈ allowed := by
      rw [hkidx1]
      exact build_keyword_index_posting_keys _ _ _ allowed (hall r (List.mem_cons_self _ _)) hkw
    rw [List.map_cons, List.nodup_cons] at hnd
    have hih := index_resumes_total_build f allowed rest
      ((rt.index_resume (EmbeddingModel.total f) r)).1
      (fun r' h' => hne r' (List.mem_cons_of_mem _ h'))
      (fun r' h' => by
        rw [hdocs1, List.map_append]
        intro hmem
        rcases List.mem_append.mp hmem with hm | hm
        · exact hfresh r' (List.mem_cons_of_mem _ h') hm
        · simp only [List.map_cons, List.map_nil, List.mem_singleton] at hm
          exact hnd.1 (hm ▸ List.mem_map_of_mem ResumeRecord.id h'))
      hnd.2
      (fun r' h' => hall r' (List.mem_cons_of_mem _ h'))
      hkw1
    rw [hred]
    refine ⟨?_, ?_, ?_, hih.2.2.2⟩
    · rw [hih.1, hdocs1, List.append_assoc, List.singleton_append, List.map_cons]
    · rw [hih.2.1, hvdocs1, List.append_assoc, List.singleton_append, List.map_cons]
    · rw [hih.2.2.1, hvidx1, List.append_assoc, List.singleton_append, List.map_cons]

theorem filterMap_grab_mem (dv : List Document) (rows : List (Int × ℚ)) :
    ∀ x ∈ rows.filterMap (fun p =>
      if p.1 < (dv.length : Int) then
        if p.1 < 0 then dv.getLast?.map (fun d => (d, p.2))
        else dv[p.1.toNat]?.map (fun d => (d, p.2))
      else none), x.1 ∈ dv := by
  intro x hx
  obtain ⟨p, _, hp⟩ := List.mem_filterMap.mp hx
  by_cases h1 : p.1 < (dv.length : Int)
  · rw [if_pos h1] at hp
    by_cases h2 : p.1 < 0
    · rw [if_pos h2] at hp
      obtain ⟨d, hd, hxd⟩ := Option.map_eq_some'.mp hp
      rw [← hxd]
      rw [List.getLast?_eq_getElem?] at hd
      exact List.getElem?_mem hd
    · rw [if_neg h2] at hp
      obtain ⟨d, hd, hxd⟩ := Option.map_eq_some'.mp hp
      rw [← hxd]
      exact List.getElem?_mem hd
  · rw [if_neg h1] at hp
    cases hp

theorem filterMap_grab_real (dv : List Document) (ps : List (Nat × ℚ))
    (hbound : ∀ p ∈ ps, p.1 < dv.length) :
    (ps.map (fun p => ((p.1 : Int), p.2))).filterMap (fun p =>
      if p.1 < (dv.length : Int) then
        if p.1 < 0 then dv.getLast?.map (fun d => (d, p.2))
        else dv[p.1.toNat]?.map (fun d => (d, p.2))
      else none)
      = ps.map (fun p => (dv.getD p.1 defaultDoc, p.2)) := by
  rw [List.filterMap_map]
  refine filterMap_congr_map _ _ ps ?_
  intro p hp
  have hb := hbound p hp
  simp only [Function.comp_apply]
  rw [if_pos (by exact_mod_cast hb)]
  rw [if_neg (not_lt.mpr (Int.natCast_nonneg p.1))]
  rw [Int.toNat_natCast]
  rw [List.getElem?_eq_getElem hb, Option.map_some']
  rw [List.getD_eq_getElem dv defaultDoc hb]

theorem eq_of_fst_eq_of_nodup_map_fst {α β : Type} :
    ∀ {l : List (α × β)}, (l.map Prod.fst).Nodup →
      ∀ {x y : α × β}, x ∈ l → y ∈ l → x.1 = y.1 → x = y
  | [], _, x, _, hx, _, _ => absurd hx (List.not_mem_nil x)
  | p :: t, hnd, x, y, hx, hy, hxy => by
    simp only [List.map_cons, List.nodup_cons] at hnd
    rcases List.mem_cons.mp hx with hxp | hx
    · rcases List.mem_cons.mp hy with hyp | hy
      · rw [hxp, hyp]
      · exfalso
        apply hnd.1
        rw [hxp] at hxy
        rw [hxy]
        exact List.mem_map_of_mem Prod.fst hy
    · rcases List.mem_cons.mp hy with hyp | hy
      · exfalso
        apply hnd.1
        rw [hyp] at hxy
        rw [← hxy]
        exact List.mem_map_of_mem Prod.fst hx
      · exact eq_of_fst_eq_of_nodup_map_fst hnd.2 hx hy hxy

theorem keyword_search_ids_sub (e : HybridSearchEngine) (q : String) (k : Nat)
    (allowed : List String)
    (hpost : ∀ t posting, alistLookup e.keyword_index t = some posting →
      ∀ pr ∈ posting, pr.1 ∈ allowed) :
    ∀ p ∈ e.keyword_search q k, p.1 ∈ allowed := by
  intro p hp
  simp only [HybridSearchEngine.keyword_search] at hp
  by_cases h : (extract_keywords q).isEmpty
  · simp [h] at hp
  · simp only [h, if_false] at hp
    have hmem : p ∈ pySorted (fun a b : String × Nat => decide (b.2 ≤ a.2)) _ :=
      List.mem_of_mem_take hp
    rw [mem_pySorted] at hmem
    exact keyword_fold_keys_sub e.keyword_index allowed hpost (extract_keywords q) []
      (by intro x hx; exact absurd hx (List.not_mem_nil x)) p.1
      (List.mem_map_of_mem Prod.fst hmem)

theorem hybrid_output_length (m : EmbeddingModel) (e : HybridSearchEngine) (q : String)
    (k : Nat) (kw vw : ℚ) (vr results : List (Document × ℚ))
    (hvr : VectorDatabase.search m e.vector_db q (k * 2) = some vr)
    (hres : e.hybrid_search m q k kw vw = some results)
    (hlk : ∀ idv ∈ pySet
        (((alistOfPairs ((e.keyword_search q (k * 2)).map
            (fun p => (p.1, (p.2 : ℚ))))).map Prod.fst)
          ++ ((alistOfPairs (vr.map (fun p => (p.1.id, p.2)))).map Prod.fst)),
      (alistLookup e.documents idv).isSome = true) :
    results.length = min k (pySet
        (((alistOfPairs ((e.keyword_search q (k * 2)).map
            (fun p => (p.1, (p.2 : ℚ))))).map Prod.fst)
          ++ ((alistOfPairs (vr.map (fun p => (p.1.id, p.2)))).map Prod.fst))).length := by
  simp only [HybridSearchEngine.hybrid_search, hvr, Option.some.injEq] at hres
  subst hres
  rw [length_filterMap_of_some]
  · rw [List.length_take, pySorted_length, List.length_map]
  · intro a ha
    have hmem : a ∈ pySorted (fun x y : String × ℚ => decide (y.2 ≤ x.2)) _ :=
      List.mem_of_mem_take ha
    rw [mem_pySorted] at hmem
    obtain ⟨idv, hidv, rfl⟩ := List.mem_map.mp hmem
    have := hlk idv hidv
    cases hl : alistLookup e.documents idv with
    | none => rw [hl] at this; simp at this
    | some d => simp [hl]

theorem ranked_cover (dv : List Document) (idxs : List (List ℚ)) (qv : List ℚ)
    (hlen : idxs.length = dv.length) (j : Nat) (hj : j < dv.length) :
    dv.getD j defaultDoc ∈ ((pySorted (fun a b : Nat × ℚ => b.2 ≤ a.2)
        ((List.range idxs.length).zip (idxs.map (dot qv)))).map
      (fun p => (dv.getD p.1 defaultDoc, p.2))).map Prod.fst := by
  have hjs : j < ((List.range idxs.length).zip (idxs.map (dot qv))).length := by
    rw [List.length_zip, List.length_range, List.length_map]
    omega
  have hmem : ((List.range idxs.length).zip (idxs.map (dot qv))).get ⟨j, hjs⟩
      ∈ (List.range idxs.length).zip (idxs.map (dot qv)) := List.get_mem _ _ _
  rw [← mem_pySorted (fun a b : Nat × ℚ => b.2 ≤ a.2)] at hmem
  have h2 := List.mem_map_of_mem (fun p : Nat × ℚ => (dv.getD p.1 defaultDoc, p.2)) hmem
  have h3 := List.mem_map_of_mem Prod.fst h2
  have hfst : (((List.range idxs.length).zip (idxs.map (dot qv))).get ⟨j, hjs⟩).1 = j := by
    rw [List.get_eq_getElem, List.getElem_zip]
    simp
  simpa [hfst] using h3

theorem nodup_getD_ids (resumes : List ResumeRecord)
    (hnd : (resumes.map ResumeRecord.id).Nodup) (i j : Nat)
    (hi : i < resumes.length) (hj : j < resumes.length)
    (h : ((resumes.map mkResumeDoc).getD i defaultDoc).id
      = ((resumes.map mkResumeDoc).getD j defaultDoc).id) : i = j := by
  rw [List.getD_eq_getElem _ _ (by rw [List.length_map]; omega),
    List.getD_eq_getElem _ _ (by rw [List.length_map]; omega)] at h
  rw [List.getElem_map, List.getElem_map] at h
  have hi2 : i < (resumes.map ResumeRecord.id).length := by rw [List.length_map]; omega
  have hj2 : j < (resumes.map ResumeRecord.id).length := by rw [List.length_map]; omega
  have h2 : (resumes.map ResumeRecord.id).get ⟨i, hi2⟩
      = (resumes.map ResumeRecord.id).get ⟨j, hj2⟩ := by
    rw [List.get_eq_getElem, List.get_eq_getElem, List.getElem_map, List.getElem_map]
    exact h
  have h3 := (hnd.get_inj_iff).mp h2
  simpa using h3

theorem retrieve_count_of_shape (f : String → List ℚ) (rt : ResumeRetriever)
    (resumes : List ResumeRecord) (jd : JobRecord) (k : Nat)
    (hne : resumes ≠ []) (hnd : (resumes.map ResumeRecord.id).Nodup)
    (hdocs : rt.search_engine.documents = resumes.map (fun r => (r.id, mkResumeDoc r)))
    (hvdocs : rt.search_engine.vector_db.documents = resumes.map mkResumeDoc)
    (hvidx : rt.search_engine.vector_db.index
      = resumes.map (fun r => f (create_resume_content r)))
    (hkw : ∀ t posting, alistLookup rt.search_engine.keyword_index t = some posting →
      ∀ pr ∈ posting, pr.1 ∈ resumes.map ResumeRecord.id) :
    ∃ res, rt.retrieve_candidates (EmbeddingModel.total f) jd k = some res ∧
      res.length = min k resumes.length := by
  have hdvne : rt.search_engine.vector_db.documents ≠ [] := by
    rw [hvdocs]
    intro hcon
    apply hne
    cases resumes with
    | nil => rfl
    | cons a l => simp at hcon
  have hdvlen : rt.search_engine.vector_db.documents.length = resumes.length := by
    rw [hvdocs, List.length_map]
  have hixlen : rt.search_engine.vector_db.index.length = resumes.length := by
    rw [hvidx, List.length_map]
  set q := create_job_description_content jd with hqdef
  set scored := (List.range rt.search_engine.vector_db.index.length).zip
      (rt.search_engine.vector_db.index.map (dot ((EmbeddingModel.total f).embed q)))
    with hscoreddef
  set ranked := pySorted (fun a b : Nat × ℚ => b.2 ≤ a.2) scored with hrankeddef
  set rows := (ranked.take (k * 2)).map (fun p => ((p.1 : Int), p.2)) ++
      List.replicate (k * 2 - ranked.length) ((-1 : Int), FLOAT_LOWEST) with hrowsdef
  have hvrEq : VectorDatabase.search (EmbeddingModel.total f) rt.search_engine.vector_db
      q (k * 2) = some (rows.filterMap (fun p =>
        if p.1 < (rt.search_engine.vector_db.documents.length : Int) then
          if p.1 < 0 then rt.search_engine.vector_db.documents.getLast?.map (fun d => (d, p.2))
          else rt.search_engine.vector_db.documents[p.1.toNat]?.map (fun d => (d, p.2))
        else none)) := by
    simp only [VectorDatabase.search]
    rw [← hscoreddef, ← hrankeddef, ← hrowsdef]
    exact searchRows_eq_filterMap _ hdvne rows
  have hbound : ∀ p ∈ ranked.take (k * 2),
      p.1 < rt.search_engine.vector_db.documents.length := by
    intro p hp
    have hmem := List.mem_of_mem_take hp
    rw [hrankeddef, mem_pySorted, hscoreddef] at hmem
    have h2 := List.mem_range.mp (List.of_mem_zip hmem).1
    omega
  have hApart : ((ranked.take (k * 2)).map (fun p => ((p.1 : Int), p.2))).filterMap (fun p =>
        if p.1 < (rt.search_engine.vector_db.documents.length : Int) then
          if p.1 < 0 then rt.search_engine.vector_db.documents.getLast?.map (fun d => (d, p.2))
          else rt.search_engine.vector_db.documents[p.1.toNat]?.map (fun d => (d, p.2))
        else none)
      = (ranked.take (k * 2)).map (fun p =>
          (rt.search_engine.vector_db.documents.getD p.1 defaultDoc, p.2)) :=
    filterMap_grab_real _ _ hbound
  set vres := rows.filterMap (fun p =>
      if p.1 < (rt.search_engine.vector_db.documents.length : Int) then
        if p.1 < 0 then rt.search_engine.vector_db.documents.getLast?.map (fun d => (d, p.2))
        else rt.search_engine.vector_db.documents[p.1.toNat]?.map (fun d => (d, p.2))
      else none) with hvresdef
  have hvrsplit : vres = (ranked.take (k * 2)).map (fun p =>
        (rt.search_engine.vector_db.documents.getD p.1 defaultDoc, p.2))
      ++ (List.replicate (k * 2 - ranked.length) ((-1 : Int), FLOAT_LOWEST)).filterMap (fun p =>
        if p.1 < (rt.search_engine.vector_db.documents.length : Int) then
          if p.1 < 0 then rt.search_engine.vector_db.documents.getLast?.map (fun d => (d, p.2))
          else rt.search_engine.vector_db.documents[p.1.toNat]?.map (fun d => (d, p.2))
        else none) := by
    rw [hvresdef, hrowsdef, List.filterMap_append, hApart]
  set allids := pySet
      (((alistOfPairs ((rt.search_engine.keyword_search q (k * 2)).map
          (fun p => (p.1, (p.2 : ℚ))))).map Prod.fst)
        ++ ((alistOfPairs (vres.map (fun p => (p.1.id, p.2)))).map Prod.fst)) with hallidsdef
  have hvres_sub : ∀ x ∈ vres, x.1 ∈ rt.search_engine.vector_db.documents := by
    rw [hvresdef]
    exact filterMap_grab_mem _ rows
  have hsub_all : ∀ idv ∈ allids, idv ∈ resumes.map ResumeRecord.id := by
    intro idv hidv
    rw [hallidsdef, mem_pySet] at hidv
    rcases List.mem_append.mp hidv with h | h
    · rw [alistOfPairs_map_fst, mem_pySet, List.map_map] at h
      obtain ⟨p, hp, rfl⟩ := List.mem_map.mp h
      exact keyword_search_ids_sub rt.search_engine q (k * 2) _ hkw p hp
    · rw [alistOfPairs_map_fst, mem_pySet, List.map_map] at h
      obtain ⟨x, hx, rfl⟩ := List.mem_map.mp h
      have hmem := hvres_sub x hx
      rw [hvdocs] at hmem
      obtain ⟨r, hr, heq⟩ := List.mem_map.mp hmem
      show x.1.id ∈ resumes.map ResumeRecord.id
      rw [← heq]
      exact List.mem_map_of_mem ResumeRecord.id hr
  have hlk : ∀ idv ∈ allids, (alistLookup rt.search_engine.documents idv).isSome = true := by
    intro idv hidv
    rw [alistLookup_isSome_iff, hdocs, List.map_map]
    obtain ⟨r, hr, rfl⟩ := List.mem_map.mp (hsub_all idv hidv)
    exact List.mem_map_of_mem _ hr
  have hrankedlen : ranked.length = resumes.length := by
    rw [hrankeddef, pySorted_length, hscoreddef, List.length_zip, List.length_range,
      List.length_map]
    omega
  have hcover : resumes.length ≤ k * 2 →
      ∀ r ∈ resumes, r.id ∈ vres.map (fun z => z.1.id) := by
    intro hcase r hr
    have htake : ranked.take (k * 2) = ranked := List.take_of_length_le (by omega)
    obtain ⟨⟨j, hj⟩, hget⟩ := List.mem_iff_get.mp hr
    have hjd : j < rt.search_engine.vector_db.documents.length := by omega
    have hcov := ranked_cover rt.search_engine.vector_db.documents
      rt.search_engine.vector_db.index ((EmbeddingModel.total f).embed q)
      (by omega) j hjd
    rw [← hscoreddef, ← hrankeddef] at hcov
    have hdj : rt.search_engine.vector_db.documents.getD j defaultDoc = mkResumeDoc r := by
      rw [hvdocs, List.getD_eq_getElem _ _ (by rw [List.length_map]; omega), List.getElem_map]
      have hjr : resumes[j] = r := hget
      rw [hjr]
    rw [hdj, ← htake] at hcov
    obtain ⟨x, hx, hxid⟩ := List.mem_map.mp hcov
    have hyv : x ∈ vres := by
      rw [hvrsplit]
      exact List.mem_append_left _ hx
    have h5 := List.mem_map_of_mem (fun z : Document × ℚ => z.1.id) hyv
    have h6 : (mkResumeDoc r).id ∈ vres.map (fun z : Document × ℚ => z.1.id) := by
      rw [← hxid]
      exact h5
    exact h6
  have hbig : k * 2 < resumes.length → k * 2 ≤ allids.length := by
    intro hcase
    have htklen : (ranked.take (k * 2)).length = k * 2 := by
      rw [List.length_take]
      omega
    have hfstnodup : ((ranked.take (k * 2)).map Prod.fst).Nodup := by
      refine List.Nodup.sublist (List.Sublist.map Prod.fst (List.take_sublist _ _)) ?_
      have hperm : (ranked.map Prod.fst).Perm (scored.map Prod.fst) := by
        rw [hrankeddef]
        exact (pySorted_perm _ scored).map Prod.fst
      rw [hperm.nodup_iff]
      have hz : scored.map Prod.fst = List.range rt.search_engine.vector_db.index.length := by
        rw [hscoreddef]
        exact List.map_fst_zip _ _ (by rw [List.length_range, List.length_map])
      rw [hz]
      exact List.nodup_range _
    have hidnodup : (((ranked.take (k * 2)).map (fun p =>
        (rt.search_engine.vector_db.documents.getD p.1 defaultDoc, p.2))).map
          (fun z => z.1.id)).Nodup := by
      rw [List.map_map]
      refine List.Nodup.map_on ?_ ?_
      · intro x hx y hy hxy
        have hbx := hbound x hx
        have hby := hbound y hy
        simp only [Function.comp_apply] at hxy
        have hxy2 : ((resumes.map mkResumeDoc).getD x.1 defaultDoc).id
            = ((resumes.map mkResumeDoc).getD y.1 defaultDoc).id := by
          rw [← hvdocs]
          exact hxy
        have := nodup_getD_ids resumes hnd x.1 y.1 (by omega) (by omega) hxy2
        exact eq_of_fst_eq_of_nodup_map_fst hfstnodup hx hy this
      · refine List.Nodup.sublist (List.take_sublist _ _) ?_
        rw [hrankeddef]
        rw [(pySorted_perm _ scored).nodup_iff]
        have hz : scored.map Prod.fst = List.range rt.search_engine.vector_db.index.length := by
          rw [hscoreddef]
          exact List.map_fst_zip _ _ (by rw [List.length_range, List.length_map])
        have := List.nodup_range rt.search_engine.vector_db.index.length
        rw [← hz] at this
        exact List.Nodup.of_map Prod.fst this
    have hsubids : (((ranked.take (k * 2)).map (fun p =>
        (rt.search_engine.vector_db.documents.getD p.1 defaultDoc, p.2))).map
          (fun z => z.1.id)) ⊆ allids := by
      intro a ha
      rw [List.map_map] at ha
      obtain ⟨x, hx, rfl⟩ := List.mem_map.mp ha
      have hxv : (fun p : Nat × ℚ =>
          (rt.search_engine.vector_db.documents.getD p.1 defaultDoc, p.2)) x ∈ vres := by
        rw [hvrsplit]
        exact List.mem_append_left _ (List.mem_map_of_mem _ hx)
      rw [hallidsdef, mem_pySet]
      refine List.mem_append_right _ ?_
      rw [alistOfPairs_map_fst, mem_pySet, List.map_map]
      exact List.mem_map_of_mem _ hxv
    calc k * 2 = (((ranked.take (k * 2)).map (fun p =>
          (rt.search_engine.vector_db.documents.getD p.1 defaultDoc, p.2))).map
            (fun z => z.1.id)).length := by
          rw [List.length_map, List.length_map, htklen]
    _ ≤ allids.length := (List.Nodup.subperm hidnodup hsubids).length_le
  have hsome : (rt.search_engine.hybrid_search (EmbeddingModel.total f) q k
      (3/10) (7/10)).isSome = true := by
    simp only [HybridSearchEngine.hybrid_search, hvrEq]
    rfl
  obtain ⟨results, hresEq⟩ := Option.isSome_iff_exists.mp hsome
  have hreslen := hybrid_output_length (EmbeddingModel.total f) rt.search_engine q k
    (3/10) (7/10) vres results hvrEq hresEq
    (fun idv hidv => hlk idv (by rw [hallidsdef]; exact hidv))
  rw [← hallidsdef] at hreslen
  have hmeta : ∀ p ∈ results, ∃ r : ResumeRecord, p.1.metadata = Metadata.resume r := by
    intro p hp
    obtain ⟨idv2, hmem⟩ := hybrid_search_mem_documents (EmbeddingModel.total f)
      rt.search_engine q k (3/10) (7/10) results hresEq p hp
    rw [hdocs] at hmem
    obtain ⟨r, hr, heq⟩ := List.mem_map.mp hmem
    refine ⟨r, ?_⟩
    have h2 : p.1 = mkResumeDoc r := (congrArg Prod.snd heq).symm
    rw [h2]
    rfl
  refine ⟨results.filterMap (fun p => match p.1.metadata with
      | Metadata.resume r => some ⟨r, p.2⟩
      | _ => none), ?_, ?_⟩
  · simp only [ResumeRetriever.retrieve_candidates]
    rw [← hqdef, hresEq]
    rfl
  · rw [length_filterMap_of_some]
    · rw [hreslen]
      rcases le_or_lt resumes.length (k * 2) with hcase | hcase
      · have hperm : allids.Perm (resumes.map ResumeRecord.id) := by
          rw [List.perm_ext_iff_of_nodup ?_ hnd]
          · intro a
            constructor
            · exact hsub_all a
            · intro ha
              obtain ⟨r, hr, rfl⟩ := List.mem_map.mp ha
              have hc := hcover hcase r hr
              rw [hallidsdef, mem_pySet]
              refine List.mem_append_right _ ?_
              rw [alistOfPairs_map_fst, mem_pySet, List.map_map]
              exact hc
          · rw [hallidsdef]
            exact pySet_nodup _
        rw [hperm.length_eq, List.length_map]
      · have h1 := hbig hcase
        omega
    · intro p hp
      obtain ⟨r, hr⟩ := hmeta p hp
      rw [hr]
      rfl

/-- C1 (amended): `retrieve_candidates`, when it returns at all, returns at
most `topK` candidates; and on a corpus built by `index_resumes` alone from
resumes with pairwise-distinct non-empty ids under a total embedding
provider, it succeeds and returns exactly `min(topK, number of indexed
resumes)` candidates.  (The original claim's unconditional exact count is
refuted by `C1_counterexample`: an indexed job description occupies a
ranking slot and is then filtered out, leaving fewer than
`min(topK, resume count)` results.) -/
theorem C1_amended (m : EmbeddingModel) (rt : ResumeRetriever) (jd : JobRecord) (k : Nat)
    (res : List Candidate) (hres : rt.retrieve_candidates m jd k = some res)
    (f : String → List ℚ) (resumes : List ResumeRecord) (jd2 : JobRecord) (k2 : Nat)
    (hne : resumes ≠ []) (hnd : (resumes.map ResumeRecord.id).Nodup)
    (hids : ∀ r ∈ resumes, r.id ≠ "") :
    res.length ≤ k ∧
    ∃ out, ((ResumeRetriever.init.index_resumes (EmbeddingModel.total f) resumes).1
        ).retrieve_candidates (EmbeddingModel.total f) jd2 k2 = some out ∧
      out.length = min k2 resumes.length := by
  constructor
  · exact retrieve_at_most_topK m rt jd k res hres
  · obtain ⟨hdocs, hvdocs, hvidx, hkw⟩ := index_resumes_total_build f
      (resumes.map ResumeRecord.id) resumes ResumeRetriever.init hids
      (by intro r hr; simp [ResumeRetriever.init, HybridSearchEngine.init]) hnd
      (fun r hr => List.mem_map_of_mem _ hr)
      (by intro t posting hl; simp [ResumeRetriever.init, HybridSearchEngine.init,
        alistLookup] at hl)
    refine retrieve_count_of_shape f _ resumes jd2 k2 hne hnd ?_ ?_ ?_ hkw
    · rw [hdocs]
      simp [ResumeRetriever.init, HybridSearchEngine.init]
    · rw [hvdocs]
      simp [ResumeRetriever.init, HybridSearchEngine.init, VectorDatabase.init]
    · rw [hvidx]
      simp [ResumeRetriever.init, HybridSearchEngine.init, VectorDatabase.init]

set_option maxRecDepth 4000 in
theorem C1_amended_witness :
    ([] : List Candidate).length ≤ 1 ∧
    ∃ out, ((ResumeRetriever.init.index_resumes (EmbeddingModel.total (fun _ => [(1 : ℚ)]))
        [exResume]).1).retrieve_candidates (EmbeddingModel.total (fun _ => [(1 : ℚ)]))
        exJob 1 = some out ∧ out.length = min 1 [exResume].length :=
  C1_amended constModel mixedRetriever exJob 1 [] (by with_unfolding_all decide)
    (fun _ => [(1 : ℚ)]) [exResume] exJob 1 (by decide) (by decide)
    (by intro r hr; fin_cases hr; decide)
